import Mathlib

/-!
Shallow embedding of the numerical core of the PINC plasma code
(`src/multigrid.c`, `src/pusher.c`): multigrid level allocation, the Jacobi
smoother, the transfer operators, the particle pusher and the emigrant
extraction.  C doubles are modelled as rationals, C arrays as total
functions or lists, and C integers as `Int`/`Nat` (all quantities involved
stay far from the overflow range).
-/

namespace PINC

/-- Truncation toward zero: the semantics of the C cast `(int) x` on a
double, modelled on `ℚ`. -/
def cTrunc (q : ℚ) : ℤ := if 0 ≤ q then ⌊q⌋ else ⌈q⌉

/-! ### Neighbor index algebra (`pusher.c`) -/

/-- `puNeighborToReciprocal` (pusher.c, lines 547–558): the loop
`reciprocal += (2 - neighbor % 3) * pow(3, d); neighbor /= 3` maps every
base-3 digit `t` of `neighbor` to `2 - t`; rendered as structural recursion
on `nDims` (digit `d` of the result is `(2 - digit d of the input)`). -/
def puNeighborToReciprocal (neighbor : ℕ) (nDims : ℕ) : ℕ :=
  match nDims with
  | 0 => 0
  | d + 1 => (2 - neighbor % 3) + 3 * puNeighborToReciprocal (neighbor / 3) d

lemma puNeighborToReciprocal_invol (D : ℕ) :
    ∀ n : ℕ, n < 3 ^ D →
      puNeighborToReciprocal (puNeighborToReciprocal n D) D = n := by
  induction D with
  | zero =>
    intro n hn
    have hn0 : n = 0 := by simpa using Nat.lt_one_iff.mp (by simpa using hn)
    subst hn0; rfl
  | succ D ih =>
    intro n hn
    have h3 : n % 3 < 3 := Nat.mod_lt _ (by norm_num)
    have hdiv : n / 3 < 3 ^ D := by
      rw [pow_succ] at hn
      exact Nat.div_lt_of_lt_mul (by omega)
    simp only [puNeighborToReciprocal]
    have hmod :
        ((2 - n % 3) + 3 * puNeighborToReciprocal (n / 3) D) % 3 = 2 - n % 3 := by
      rw [Nat.add_mul_mod_self_left]; omega
    have hdiv2 :
        ((2 - n % 3) + 3 * puNeighborToReciprocal (n / 3) D) / 3
          = puNeighborToReciprocal (n / 3) D := by
      rw [Nat.add_mul_div_left _ _ (by norm_num : 0 < 3)]; omega
    rw [hmod, hdiv2, ih _ hdiv]
    omega

/-- C9: for every dimensionality `D ≥ 1` and every neighbor index
`n ∈ [0, 3^D)`, the reciprocal map is an involution:
`puNeighborToReciprocal (puNeighborToReciprocal n D) D = n`. -/
theorem c9_reciprocal_involution (D n : ℕ) (hD : 1 ≤ D) (hn : n < 3 ^ D) :
    puNeighborToReciprocal (puNeighborToReciprocal n D) D = n :=
  puNeighborToReciprocal_invol D n hn

theorem c9_reciprocal_involution_witness :
    1 ≤ 3 ∧ 17 < 3 ^ 3 ∧
      puNeighborToReciprocal (puNeighborToReciprocal 17 3) 3 = 17 :=
  ⟨by norm_num, by norm_num,
    c9_reciprocal_involution 3 17 (by norm_num) (by norm_num)⟩

/-! ### Multigrid construction (`multigrid.c`) -/

/-- The divisibility gate of `mgAlloc` (multigrid.c, line 278): the C
expression `trueSize[d+1] % (int) 2*nLevels` parses as
`(trueSize[d+1] % 2) * nLevels` because the cast binds only to the literal
`2`; construction is fatal iff that product is nonzero for some
non-leading axis `d < nDims`. -/
def mgDivisibilityTrips (trueSize : ℕ → ℤ) (nDims : ℕ) (nLevels : ℤ) : Bool :=
  (List.range nDims).any fun d => trueSize (d + 1) % 2 * nLevels != 0

/-- C2 (code bug): with `nLevels = 3` and finest interior extent `6` on the
only non-leading axis, `6` is not divisible by `2^(nLevels-1) = 4`, so the
claim demands a fatal diagnostic; but the implemented check
`(trueSize[d+1] % 2) * nLevels` evaluates to `0` and construction
proceeds. -/
theorem c2_divisibility_check_passes_on_nondivisible_size :
    mgDivisibilityTrips (fun d => if d = 0 then 1 else 6) 1 3 = false ∧
      ¬ ((2 : ℤ) ^ (3 - 1) ∣ 6) := by
  constructor
  · decide
  · decide

/-- Per-level interior extents produced by `mgAllocSubGrids` (multigrid.c,
lines 113–131): level `q ≥ 1` keeps `trueSize[0]` on the leading axis and
gets `trueSize[d] / (2*q)` on every other axis
(`subTrueSize[d] = trueSize[d]/(2*q)`); level 0 is the finest grid. -/
def mgSubGridTrueSize (trueSize : ℕ → ℤ) (q : ℕ) : ℕ → ℤ :=
  if q = 0 then trueSize
  else fun d => if d = 0 then trueSize 0 else trueSize d / (2 * (q : ℤ))

/-- C1 (code bug): with finest interior extent `24` and `nLevels = 4`, the
level-3 extent computed by the code is `24 / (2*3) = 4`, but half of the
level-2 extent `24 / (2*2) = 6` is `3`: the code divides the finest extent
by `2q` (arithmetic progression) instead of halving per level (`2^q`),
contradicting its own comment `The subgrid needs half the grid points`. -/
theorem c1_coarsening_not_halving_per_level :
    mgSubGridTrueSize (fun d => if d = 0 then 1 else 24) 3 1 = 4 ∧
      mgSubGridTrueSize (fun d => if d = 0 then 1 else 24) 2 1 / 2 = 3 ∧
      (4 : ℤ) ≠ 3 := by
  refine ⟨?_, ?_, ?_⟩ <;> decide

/-- Indices of `phi->val` read during one Jacobi relaxation sweep
(multigrid.c, lines 338–353): for every `g ∈ [0, sizeProd[rank])` the
stencil reads `g + sizeProd[1]`, `g - sizeProd[1]`, `g + sizeProd[2]` and
`g - sizeProd[2]`. -/
def jacobianSweepPhiReads (sp1 sp2 total : ℤ) : List ℤ :=
  (List.range total.toNat).flatMap fun g =>
    [(g : ℤ) + sp1, (g : ℤ) - sp1, (g : ℤ) + sp2, (g : ℤ) - sp2]

/-- C10 (code bug): on a rank-3 grid with `sizeProd = [1,1,4,16]`, the Jacobi
sweep reads `phi->val` at index `-1` (at `g = 0` the stencil term
`phiVal[g - sizeProd[1]]` is below the array), so not every access lies in
`[0, sizeProd[rank]) = [0, 16)`. -/
theorem c10_jacobian_sweep_reads_out_of_bounds :
    (-1 : ℤ) ∈ jacobianSweepPhiReads 1 4 16 ∧
      ¬ (∀ i ∈ jacobianSweepPhiReads 1 4 16, 0 ≤ i ∧ i < 16) := by
  constructor
  · decide
  · decide

/-! ### Periodic boundary for particles (`pusher.c`, `puBndPeriodic`) -/

/-- Pointwise description of a left fold updating each index of a
duplicate-free list in place, the new value depending only on the index
and the value stored there. -/
lemma foldl_update_pointwise (f : ℕ → ℚ → ℚ) :
    ∀ (l : List ℕ), l.Nodup → ∀ (v : ℕ → ℚ) (q : ℕ),
      (l.foldl (fun w i => Function.update w i (f i (w i))) v) q
        = if q ∈ l then f q (v q) else v q := by
  intro l
  induction l with
  | nil => intro _ v q; simp
  | cons a t ih =>
    intro hnd v q
    have hat : a ∉ t := (List.nodup_cons.mp hnd).1
    have hndt : t.Nodup := (List.nodup_cons.mp hnd).2
    simp only [List.foldl_cons]
    rw [ih hndt]
    by_cases hqt : q ∈ t
    · have hqa : q ≠ a := fun h => hat (h ▸ hqt)
      simp [hqt, hqa, Function.update_apply, List.mem_cons]
    · by_cases hqa : q = a
      · subst hqa
        simp [hqt, Function.update_apply]
      · simp [hqt, hqa, Function.update_apply, List.mem_cons]

/-- Interleaved particle coordinates decompose uniquely into particle
index and axis. -/
lemma block_eq {nD i d j e : ℕ} (hd : d < nD) (he : e < nD)
    (h : i * nD + d = j * nD + e) : i = j ∧ d = e := by
  rcases lt_trichotomy i j with hlt | heq | hgt
  · exfalso
    have h1 : (i + 1) * nD ≤ j * nD := Nat.mul_le_mul_right _ hlt
    have h2 : (i + 1) * nD = i * nD + nD := by ring
    omega
  · subst heq; exact ⟨rfl, by omega⟩
  · exfalso
    have h1 : (j + 1) * nD ≤ i * nD := Nat.mul_le_mul_right _ hgt
    have h2 : (j + 1) * nD = j * nD + nD := by ring
    omega

/-- The two sequential wraps that `puBndPeriodic` (pusher.c, lines 57–58)
applies to one coordinate: `if (pos > size[d+1]) pos -= size[d+1];
if (pos < 0) pos += size[d+1];` — note the first test is strict `>`. -/
def puBndWrapCoord (x : ℚ) (L : ℤ) : ℚ :=
  let x1 := if (L : ℚ) < x then x - (L : ℚ) else x
  if x1 < 0 then x1 + (L : ℚ) else x1

/-- The two sequential conditionals collapse to one nested conditional. -/
lemma puBndWrapCoord_eq (x : ℚ) (L : ℤ) :
    puBndWrapCoord x L
      = if (L : ℚ) < x then x - (L : ℚ)
        else if x < 0 then x + (L : ℚ) else x := by
  simp only [puBndWrapCoord]
  split_ifs with h1 h2 <;> first | rfl | linarith

/-- The inner `d`-loop of `puBndPeriodic` for one particle `i`: wrap each of
the `nDims` interleaved coordinates `pos[i*nDims+d]` by `size[d+1]`. -/
def puBndParticle (size : ℕ → ℤ) (nD : ℕ) (pos : ℕ → ℚ) (i : ℕ) : ℕ → ℚ :=
  (List.range nD).foldl
    (fun w d =>
      Function.update w (i * nD + d)
        (puBndWrapCoord (w (i * nD + d)) (size (d + 1)))) pos

/-- The particle loop of `puBndPeriodic` for one species: `n` particles
starting at particle index `i0`. -/
def puBndLoop (size : ℕ → ℤ) (nD : ℕ) : ℕ → ℕ → (ℕ → ℚ) → (ℕ → ℚ)
  | 0, _, pos => pos
  | n + 1, i, pos => puBndLoop size nD n (i + 1) (puBndParticle size nD pos i)

/-- `puBndPeriodic` (pusher.c, lines 43–62): for each species `s < nSpecies`
wrap every live particle coordinate; velocities are returned untouched. -/
def puBndPeriodic (S nD : ℕ) (iStart iStop : ℕ → ℕ) (size : ℕ → ℤ)
    (pos vel : ℕ → ℚ) : (ℕ → ℚ) × (ℕ → ℚ) :=
  ((List.range S).foldl
      (fun w s => puBndLoop size nD (iStop s - iStart s) (iStart s) w) pos,
    vel)

lemma puBndParticle_apply (size : ℕ → ℤ) (nD : ℕ) (pos : ℕ → ℚ)
    (j i d : ℕ) (hd : d < nD) :
    puBndParticle size nD pos j (i * nD + d)
      = if i = j then puBndWrapCoord (pos (i * nD + d)) (size (d + 1))
        else pos (i * nD + d) := by
  have hmap : puBndParticle size nD pos j
      = ((List.range nD).map (fun e => j * nD + e)).foldl
          (fun w q =>
            Function.update w q
              (puBndWrapCoord (w q) (size (q - j * nD + 1)))) pos := by
    rw [puBndParticle, List.foldl_map]
    congr 1
    funext w e
    rw [Nat.add_sub_cancel_left]
  have hnd : (((List.range nD).map (fun e => j * nD + e))).Nodup :=
    (List.nodup_range nD).map fun a b h => by omega
  rw [hmap,
    foldl_update_pointwise (fun q x => puBndWrapCoord x (size (q - j * nD + 1)))
      _ hnd pos (i * nD + d)]
  by_cases hij : i = j
  · subst hij
    have hmem : i * nD + d ∈ (List.range nD).map (fun e => i * nD + e) := by
      simp only [List.mem_map, List.mem_range]
      exact ⟨d, hd, rfl⟩
    have hsub : i * nD + d - i * nD = d := by omega
    simp [hmem, hsub]
  · have hmem : i * nD + d ∉ (List.range nD).map (fun e => j * nD + e) := by
      simp only [List.mem_map, List.mem_range]
      rintro ⟨e, he, heq⟩
      exact hij (block_eq hd he heq.symm).1
    simp [hmem, hij]

lemma puBndLoop_apply (size : ℕ → ℤ) (nD : ℕ) :
    ∀ (n i0 : ℕ) (pos : ℕ → ℚ) (i d : ℕ), d < nD →
      puBndLoop size nD n i0 pos (i * nD + d)
        = if i0 ≤ i ∧ i < i0 + n then
            puBndWrapCoord (pos (i * nD + d)) (size (d + 1))
          else pos (i * nD + d) := by
  intro n
  induction n with
  | zero =>
    intro i0 pos i d hd
    simp only [puBndLoop]
    rw [if_neg]
    omega
  | succ n ih =>
    intro i0 pos i d hd
    simp only [puBndLoop]
    rw [ih (i0 + 1) _ i d hd, puBndParticle_apply _ _ _ _ _ _ hd]
    split_ifs <;> first | rfl | omega

lemma puBndFold_untouched (size : ℕ → ℤ) (nD : ℕ) (iStart iStop : ℕ → ℕ) :
    ∀ (ss : List ℕ) (pos : ℕ → ℚ) (i d : ℕ), d < nD →
      (∀ t ∈ ss, i < iStart t ∨ iStop t ≤ i) →
      (ss.foldl
          (fun w s => puBndLoop size nD (iStop s - iStart s) (iStart s) w) pos)
          (i * nD + d)
        = pos (i * nD + d) := by
  intro ss
  induction ss with
  | nil => intro pos i d _ _; rfl
  | cons t rest ih =>
    intro pos i d hd hout
    simp only [List.foldl_cons]
    rw [ih _ i d hd (fun u hu => hout u (List.mem_cons_of_mem _ hu)),
      puBndLoop_apply _ _ _ _ _ _ _ hd]
    have ht := hout t (List.mem_cons_self _ _)
    rw [if_neg]
    omega

lemma puBndFold_window (size : ℕ → ℤ) (nD : ℕ) (iStart iStop : ℕ → ℕ) :
    ∀ (ss : List ℕ), ss.Nodup → ∀ (pos : ℕ → ℚ) (s i d : ℕ), d < nD →
      s ∈ ss → iStart s ≤ i → i < iStop s →
      (∀ t ∈ ss, t ≠ s → i < iStart t ∨ iStop t ≤ i) →
      (ss.foldl
          (fun w u => puBndLoop size nD (iStop u - iStart u) (iStart u) w) pos)
          (i * nD + d)
        = puBndWrapCoord (pos (i * nD + d)) (size (d + 1)) := by
  intro ss
  induction ss with
  | nil => intro _ pos s i d _ hmem; exact absurd hmem (List.not_mem_nil s)
  | cons t rest ih =>
    intro hnd pos s i d hd hmem hlo hhi hothers
    have htr : t ∉ rest := (List.nodup_cons.mp hnd).1
    have hndr : rest.Nodup := (List.nodup_cons.mp hnd).2
    simp only [List.foldl_cons]
    rcases List.mem_cons.mp hmem with hst | hsrest
    · rw [hst] at hlo hhi
      rw [puBndFold_untouched size nD iStart iStop rest _ i d hd
          (fun u hu =>
            hothers u (List.mem_cons_of_mem _ hu)
              (fun h => htr (by rw [h, hst] at hu; exact hu))),
        puBndLoop_apply _ _ _ _ _ _ _ hd]
      rw [if_pos]
      omega
    · have hts : t ≠ s := fun h => htr (by rw [h]; exact hsrest)
      have hnott := hothers t (List.mem_cons_self _ _) hts
      rw [ih hndr _ s i d hd hsrest hlo hhi
          (fun u hu hus => hothers u (List.mem_cons_of_mem _ hu) hus),
        puBndLoop_apply _ _ _ _ _ _ _ hd]
      rw [if_neg]
      omega

/-- C8 (amended): `puBndPeriodic` wraps each coordinate of every live
particle with a STRICT upper test: if `pos[d] > size[d+1]` it subtracts
`size[d+1]`, else if `pos[d] < 0` it adds `size[d+1]`, else leaves it; a
coordinate exactly equal to `size[d+1]` is NOT wrapped.  Velocities are
never modified. -/
theorem c8_periodic_wrap_amended (S nD : ℕ) (iStart iStop : ℕ → ℕ)
    (size : ℕ → ℤ) (pos vel : ℕ → ℚ)
    (hmono : ∀ s, s < S → iStart s ≤ iStop s)
    (hsep : ∀ s, s + 1 < S → iStop s ≤ iStart (s + 1))
    (s : ℕ) (hs : s < S) (i : ℕ) (hlo : iStart s ≤ i) (hhi : i < iStop s)
    (d : ℕ) (hd : d < nD) :
    ((puBndPeriodic S nD iStart iStop size pos vel).1 (i * nD + d)
        = (if (size (d + 1) : ℚ) < pos (i * nD + d) then
              pos (i * nD + d) - (size (d + 1) : ℚ)
            else if pos (i * nD + d) < 0 then
              pos (i * nD + d) + (size (d + 1) : ℚ)
            else pos (i * nD + d)))
      ∧ (puBndPeriodic S nD iStart iStop size pos vel).2 = vel := by
  have hchain : ∀ a b : ℕ, b < S → a < b → iStop a ≤ iStart b := by
    intro a b
    induction b with
    | zero => intro _ h; exact absurd h (Nat.not_lt_zero a)
    | succ b ihb =>
      intro hbS hab
      rcases Nat.lt_succ_iff_lt_or_eq.mp hab with h | h
      · exact le_trans (ihb (by omega) h)
          (le_trans (hmono b (by omega)) (hsep b hbS))
      · subst h; exact hsep a hbS
  have hothers : ∀ t ∈ List.range S, t ≠ s → i < iStart t ∨ iStop t ≤ i := by
    intro t ht hts
    have htS : t < S := List.mem_range.mp ht
    rcases Nat.lt_or_ge t s with h | h
    · right; exact le_trans (hchain t s hs h) hlo
    · left
      have hst : s < t := by omega
      exact lt_of_lt_of_le hhi (hchain s t htS hst)
  constructor
  · have hwin := puBndFold_window size nD iStart iStop (List.range S)
      (List.nodup_range S) pos s i d hd (List.mem_range.mpr hs) hlo hhi hothers
    simp only [puBndPeriodic]
    rw [hwin, puBndWrapCoord_eq]
  · rfl

theorem c8_periodic_wrap_amended_witness :
    ((puBndPeriodic 1 1 (fun _ => 0) (fun _ => 1) (fun _ => 4)
        (fun _ => 9/2) (fun _ => 7)).1 (0 * 1 + 0)
      = (if ((4 : ℤ) : ℚ) < (fun _ : ℕ => (9/2 : ℚ)) (0 * 1 + 0) then
            (fun _ : ℕ => (9/2 : ℚ)) (0 * 1 + 0) - ((4 : ℤ) : ℚ)
          else if (fun _ : ℕ => (9/2 : ℚ)) (0 * 1 + 0) < 0 then
            (fun _ : ℕ => (9/2 : ℚ)) (0 * 1 + 0) + ((4 : ℤ) : ℚ)
          else (fun _ : ℕ => (9/2 : ℚ)) (0 * 1 + 0)))
      ∧ (puBndPeriodic 1 1 (fun _ => 0) (fun _ => 1) (fun _ => 4)
          (fun _ => 9/2) (fun _ => 7)).2 = (fun _ => 7) :=
  c8_periodic_wrap_amended 1 1 (fun _ => 0) (fun _ => 1) (fun _ => 4)
    (fun _ => 9/2) (fun _ => 7) (fun _ _ => by norm_num) (fun _ h => by omega)
    0 (by norm_num) 0 (by norm_num) (by norm_num) 0 (by norm_num)

/-- C8 (counterexample to the claim as stated): a single 1-D particle at
`pos = 4` on a grid with `size[1] = 4` satisfies `pos[0] ≥ size[1]`, so the
claim requires the new coordinate to be `pos - size[1] = 0`; the code
compares with strict `>` and leaves the coordinate at `4`. -/
theorem c8_ge_wrap_counterexample :
    (puBndPeriodic 1 1 (fun _ => 0) (fun _ => 1) (fun _ => 4)
        (fun _ => 4) (fun _ => 0)).1 0 = 4
      ∧ ((4 : ℚ) ≥ ((4 : ℤ) : ℚ)) ∧ ((4 : ℚ) ≠ 4 - ((4 : ℤ) : ℚ)) := by
  refine ⟨?_, by norm_num, by norm_num⟩
  decide

/-! ### Particle-to-grid distribution (`pusher.c`, `puDistr3D1`) -/

/-- In-place accumulation `val[i] += w` on the value list (the C code
assumes the index is valid; the in-bounds hypotheses below guarantee it). -/
def addAt (v : List ℚ) (i : ℤ) (w : ℚ) : List ℚ :=
  if 0 ≤ i then v.set i.toNat (v.getD i.toNat 0 + w) else v

lemma length_addAt (v : List ℚ) (i : ℤ) (w : ℚ) :
    (addAt v i w).length = v.length := by
  unfold addAt; split_ifs <;> simp

lemma sum_set (l : List ℚ) :
    ∀ (n : ℕ), n < l.length → ∀ a : ℚ,
      (l.set n a).sum = l.sum - l.getD n 0 + a := by
  induction l with
  | nil => intro n h; simp at h
  | cons x t ih =>
    intro n h a
    cases n with
    | zero =>
      show (a :: t).sum = (x :: t).sum - (x :: t).getD 0 0 + a
      simp [List.sum_cons]
      ring
    | succ n =>
      have h' : n < t.length := by simpa using h
      show (x :: t.set n a).sum = (x :: t).sum - (x :: t).getD (n + 1) 0 + a
      simp [List.sum_cons, ih n h' a, List.getD_cons_succ]
      ring

lemma sum_addAt (v : List ℚ) (i : ℤ) (w : ℚ)
    (h0 : 0 ≤ i) (hlen : i.toNat < v.length) :
    (addAt v i w).sum = v.sum + w := by
  unfold addAt
  rw [if_pos h0, sum_set v i.toNat hlen]
  ring

/-- Modelled from the spec: `gZero` (grid.c, not under `src/`; spec §4.6
"Zero ρ" and §1 array zero/fill primitives) sets every element of the
value array to zero. -/
def gZero (v : List ℚ) : List ℚ := v.map (fun _ => 0)

/-- Modelled from the spec: `gMul` (grid.c, not under `src/`; spec §4.6
"multiply ρ by `renormRho[s]`") scales every element of the value array. -/
def gMul (v : List ℚ) (k : ℚ) : List ℚ := v.map (fun a => a * k)

lemma gZero_sum (v : List ℚ) : (gZero v).sum = 0 := by
  induction v with
  | nil => rfl
  | cons a t ih => simpa [gZero] using ih

lemma gZero_length (v : List ℚ) : (gZero v).length = v.length := by
  simp [gZero]

lemma gMul_sum (v : List ℚ) (k : ℚ) : (gMul v k).sum = v.sum * k := by
  induction v with
  | nil => simp [gMul]
  | cons a t ih =>
    simp only [gMul, List.map_cons, List.sum_cons] at *
    rw [ih]
    ring

/-- One particle deposit of `puDistr3D1` (pusher.c, lines 121–154):
truncate the position, form the fractional parts and their complements,
and accumulate the eight trilinear corner weights at
`p = j + k*sizeProd[2] + l*sizeProd[3]` and its seven neighbors. -/
def puDeposit (sp2 sp3 : ℤ) (x0 y0 z0 : ℚ) (val : List ℚ) : List ℚ :=
  let j := cTrunc x0
  let k := cTrunc y0
  let l := cTrunc z0
  let x := x0 - (j : ℚ)
  let y := y0 - (k : ℚ)
  let z := z0 - (l : ℚ)
  let xcomp := 1 - x
  let ycomp := 1 - y
  let zcomp := 1 - z
  let p := j + k * sp2 + l * sp3
  let pj := p + 1
  let pk := p + sp2
  let pjk := pk + 1
  let pl := p + sp3
  let pjl := pl + 1
  let pkl := pl + sp2
  let pjkl := pkl + 1
  addAt (addAt (addAt (addAt (addAt (addAt (addAt (addAt val
    p (xcomp * ycomp * zcomp))
    pj (x * ycomp * zcomp))
    pk (xcomp * y * zcomp))
    pjk (x * y * zcomp))
    pl (xcomp * ycomp * z))
    pjl (x * ycomp * z))
    pkl (xcomp * y * z))
    pjkl (x * y * z)

/-- All eight corner nodes of a deposit lie inside the value array. -/
def puDepositInBounds (len sp2 sp3 : ℤ) (x0 y0 z0 : ℚ) : Prop :=
  0 ≤ sp2 ∧ 0 ≤ sp3 ∧
    0 ≤ cTrunc x0 + cTrunc y0 * sp2 + cTrunc z0 * sp3 ∧
    cTrunc x0 + cTrunc y0 * sp2 + cTrunc z0 * sp3 + sp2 + sp3 + 1 < len

instance (len sp2 sp3 : ℤ) (x0 y0 z0 : ℚ) :
    Decidable (puDepositInBounds len sp2 sp3 x0 y0 z0) := by
  unfold puDepositInBounds; infer_instance

lemma puDeposit_length (sp2 sp3 : ℤ) (x0 y0 z0 : ℚ) (val : List ℚ) :
    (puDeposit sp2 sp3 x0 y0 z0 val).length = val.length := by
  simp only [puDeposit, length_addAt]

lemma puDeposit_sum (sp2 sp3 : ℤ) (x0 y0 z0 : ℚ) (val : List ℚ)
    (h : puDepositInBounds (val.length : ℤ) sp2 sp3 x0 y0 z0) :
    (puDeposit sp2 sp3 x0 y0 z0 val).sum = val.sum + 1 := by
  obtain ⟨hsp2, hsp3, hp0, hpl⟩ := h
  simp only [puDeposit]
  rw [sum_addAt, sum_addAt, sum_addAt, sum_addAt, sum_addAt, sum_addAt,
    sum_addAt, sum_addAt]
  · ring
  all_goals first
    | omega
    | (simp only [length_addAt]; omega)

/-- The per-species particle loop of `puDistr3D1`: deposit `n` particles
starting at particle index `i0` (positions are interleaved 3-vectors). -/
def puDistrSpecies (pos : ℕ → ℚ) (sp2 sp3 : ℤ) : ℕ → ℕ → List ℚ → List ℚ
  | 0, _, val => val
  | n + 1, i, val =>
    puDistrSpecies pos sp2 sp3 n (i + 1)
      (puDeposit sp2 sp3 (pos (3 * i)) (pos (3 * i + 1)) (pos (3 * i + 2)) val)

/-- `puDistr3D1` (pusher.c, lines 106–161): zero `rho`, then for every
species deposit its live particles and scale the whole grid by
`renormRho[s]`. -/
def puDistr3D1 (S : ℕ) (iStart iStop : ℕ → ℕ) (renormRho : ℕ → ℚ)
    (pos : ℕ → ℚ) (sp2 sp3 : ℤ) (rho : List ℚ) : List ℚ :=
  (List.range S).foldl
    (fun val s =>
      gMul (puDistrSpecies pos sp2 sp3 (iStop s - iStart s) (iStart s) val)
        (renormRho s))
    (gZero rho)

lemma puDistrSpecies_length (pos : ℕ → ℚ) (sp2 sp3 : ℤ) :
    ∀ (n i0 : ℕ) (val : List ℚ),
      (puDistrSpecies pos sp2 sp3 n i0 val).length = val.length := by
  intro n
  induction n with
  | zero => intro i0 val; rfl
  | succ n ih =>
    intro i0 val
    simp only [puDistrSpecies]
    rw [ih, puDeposit_length]

lemma puDistrSpecies_sum (pos : ℕ → ℚ) (sp2 sp3 : ℤ) :
    ∀ (n i0 : ℕ) (val : List ℚ),
      (∀ k, i0 ≤ k → k < i0 + n →
        puDepositInBounds (val.length : ℤ) sp2 sp3
          (pos (3 * k)) (pos (3 * k + 1)) (pos (3 * k + 2))) →
      (puDistrSpecies pos sp2 sp3 n i0 val).sum = val.sum + n := by
  intro n
  induction n with
  | zero => intro i0 val _; simp [puDistrSpecies]
  | succ n ih =>
    intro i0 val hb
    simp only [puDistrSpecies]
    rw [ih (i0 + 1) _ (fun k hk1 hk2 => by
        rw [puDeposit_length]
        exact hb k (by omega) (by omega)),
      puDeposit_sum _ _ _ _ _ _ (hb i0 (le_refl i0) (by omega))]
    push_cast
    ring

/-- C4: `puDistr3D1` zeroes `rho` and deposits, per particle, eight corner
weights summing to exactly 1 (each in-bounds deposit raises the grid total
by exactly 1), so that for a single-species population with all corner
nodes in bounds the final grid total is `N * renormRho[0]` where
`N = iStop[0] - iStart[0]` is the live count. -/
theorem c4_distribution_weights_sum (iStart iStop : ℕ → ℕ)
    (renormRho : ℕ → ℚ) (pos : ℕ → ℚ) (sp2 sp3 : ℤ) (rho : List ℚ)
    (hbounds : ∀ i, iStart 0 ≤ i → i < iStop 0 →
      puDepositInBounds (rho.length : ℤ) sp2 sp3
        (pos (3 * i)) (pos (3 * i + 1)) (pos (3 * i + 2))) :
    (∀ (val : List ℚ) (x y z : ℚ),
        puDepositInBounds (val.length : ℤ) sp2 sp3 x y z →
        (puDeposit sp2 sp3 x y z val).sum = val.sum + 1)
      ∧ (puDistr3D1 1 iStart iStop renormRho pos sp2 sp3 rho).sum
          = ((iStop 0 - iStart 0 : ℕ) : ℚ) * renormRho 0 := by
  constructor
  · intro val x y z h
    exact puDeposit_sum sp2 sp3 x y z val h
  · show (gMul (puDistrSpecies pos sp2 sp3 (iStop 0 - iStart 0) (iStart 0)
        (gZero rho)) (renormRho 0)).sum = _
    rw [gMul_sum,
      puDistrSpecies_sum pos sp2 sp3 (iStop 0 - iStart 0) (iStart 0)
        (gZero rho)
        (fun k hk1 hk2 => by
          rw [gZero_length]
          exact hbounds k hk1 (by omega)),
      gZero_sum]
    ring

theorem c4_distribution_weights_sum_witness :
    (∀ (val : List ℚ) (x y z : ℚ),
        puDepositInBounds (val.length : ℤ) 2 4 x y z →
        (puDeposit 2 4 x y z val).sum = val.sum + 1)
      ∧ (puDistr3D1 1 (fun _ => 0) (fun _ => 2) (fun _ => 3)
          (fun _ => 1/2) 2 4 (List.replicate 8 0)).sum
          = ((2 - 0 : ℕ) : ℚ) * (fun _ : ℕ => (3 : ℚ)) 0 :=
  c4_distribution_weights_sum (fun _ => 0) (fun _ => 2) (fun _ => 3)
    (fun _ => 1/2) 2 4 (List.replicate 8 0)
    (fun i _ _ =>
      (by norm_num [puDepositInBounds, cTrunc] :
        puDepositInBounds 8 2 4 (1/2) (1/2) (1/2)))

/-! ### Emigrant extraction (`pusher.c`, `puExtractEmigrants3D` / `ND`) -/

/-- State threaded through one species pass of the extraction loop:
particle arrays, the shrinking flat live bound `pStop`, the per-neighbor
emigrant buffers and the per-neighbor/per-species counts `nEmigrants`. -/
structure ExtractState where
  pos : ℕ → ℚ
  vel : ℕ → ℚ
  pStop : ℕ
  emg : ℕ → List ℚ
  cnt : ℕ → ℕ

/-- The neighbor classifier of `puExtractEmigrants3D` (pusher.c, lines
287–293): `nx = -(x<lx)+(x>=ux)` etc., `ne = 13 + nx + 3*ny + 9*nz`. -/
def puClassify3D (thr : ℕ → ℚ) (pos : ℕ → ℚ) (p : ℕ) : ℤ :=
  let x := pos p
  let y := pos (p + 1)
  let z := pos (p + 2)
  let nx : ℤ := -(if x < thr 0 then 1 else 0) + (if thr 3 ≤ x then 1 else 0)
  let ny : ℤ := -(if y < thr 1 then 1 else 0) + (if thr 4 ≤ y then 1 else 0)
  let nz : ℤ := -(if z < thr 2 then 1 else 0) + (if thr 5 ≤ z then 1 else 0)
  13 + nx + 3 * ny + 9 * nz

/-- The neighbor classifier of `puExtractEmigrantsND` (pusher.c, lines
347–356): `ne = 0; for d = nDims-1 down to 0: ne = 3*ne +
(1 - [pos[p+d] < thr[d]] + [pos[p+d] >= thr[nDims+d]])`. -/
def puDigitND (nD : ℕ) (thr pos : ℕ → ℚ) (p d : ℕ) : ℤ :=
  1 - (if pos (p + d) < thr d then 1 else 0)
    + (if thr (nD + d) ≤ pos (p + d) then 1 else 0)

def puClassifyND (nD : ℕ) (thr : ℕ → ℚ) (pos : ℕ → ℚ) (p : ℕ) : ℤ :=
  ((List.range nD).reverse).foldl
    (fun ne d => 3 * ne + puDigitND nD thr pos p d) 0

lemma puClassify3D_bounds (thr pos : ℕ → ℚ) (p : ℕ) :
    0 ≤ puClassify3D thr pos p ∧ (puClassify3D thr pos p).toNat < 27 := by
  simp only [puClassify3D]
  split_ifs <;> decide

lemma digitsFold_bounds (f : ℕ → ℤ) (hf : ∀ d, 0 ≤ f d ∧ f d ≤ 2) :
    ∀ (l : List ℕ) (ne0 : ℤ) (k : ℕ), 0 ≤ ne0 → ne0 < 3 ^ k →
      0 ≤ l.foldl (fun ne d => 3 * ne + f d) ne0
        ∧ l.foldl (fun ne d => 3 * ne + f d) ne0 < 3 ^ (k + l.length) := by
  intro l
  induction l with
  | nil =>
    intro ne0 k h0 hk
    simpa using ⟨h0, hk⟩
  | cons d t ih =>
    intro ne0 k h0 hk
    simp only [List.foldl_cons, List.length_cons]
    have hfd := hf d
    have hstep0 : 0 ≤ 3 * ne0 + f d := by omega
    have hstep1 : 3 * ne0 + f d < 3 ^ (k + 1) := by
      have h3 : (3 : ℤ) ^ (k + 1) = 3 * 3 ^ k := by ring
      omega
    have hres := ih (3 * ne0 + f d) (k + 1) hstep0 hstep1
    have harith : k + 1 + t.length = k + (t.length + 1) := by omega
    rw [harith] at hres
    exact hres

lemma puClassifyND_bounds (nD : ℕ) (thr pos : ℕ → ℚ) (p : ℕ) :
    0 ≤ puClassifyND nD thr pos p ∧ (puClassifyND nD thr pos p).toNat < 3 ^ nD := by
  have hf : ∀ d, 0 ≤ puDigitND nD thr pos p d ∧ puDigitND nD thr pos p d ≤ 2 := by
    intro d
    unfold puDigitND
    split_ifs <;> omega
  have h := digitsFold_bounds (puDigitND nD thr pos p) hf
    ((List.range nD).reverse) 0 0 (le_refl 0) (by norm_num)
  rw [List.length_reverse, List.length_range] at h
  have hcast : ((3 ^ nD : ℕ) : ℤ) = (3 : ℤ) ^ nD := by push_cast; ring
  unfold puClassifyND
  refine ⟨h.1, ?_⟩
  have h2 := h.2
  rw [Nat.zero_add] at h2
  omega

/-- The particle loop shared by `puExtractEmigrants3D` (pusher.c, lines
286–315, stride 3) and `puExtractEmigrantsND` (lines 346–368, stride
`nDims`): classify the particle at flat index `p`; an emigrant is appended
to its neighbor buffer, counted in `nEmigrants[ne*nSpecies+s]`, replaced
by the last live particle (swap-with-last, shrinking `pStop` by one
stride, the same `p` being revisited); otherwise advance `p` by one
stride.  The fuel `n` is the remaining particle count `(pStop - p)/nD`,
which decreases by one in either branch, exactly as the C loop trip count
does.  The emigrant branch is factored into `puExtractSwap`: append the
particle to neighbor buffer `ne`, bump `nEmigrants[ne*nSpecies+s]`, copy
the last live particle over slot `p` coordinate by coordinate, and shrink
`pStop` by one stride. -/
def puExtractSwap (nD : ℕ) (S s p : ℕ) (ne : ℤ) (st : ExtractState) :
    ExtractState where
  pos := (List.range nD).foldl
    (fun w d => Function.update w (p + d) (w (st.pStop - nD + d))) st.pos
  vel := (List.range nD).foldl
    (fun w d => Function.update w (p + d) (w (st.pStop - nD + d))) st.vel
  pStop := st.pStop - nD
  emg := Function.update st.emg ne.toNat
    (st.emg ne.toNat ++ (List.range nD).map (fun d => st.pos (p + d))
      ++ (List.range nD).map (fun d => st.vel (p + d)))
  cnt := Function.update st.cnt (ne.toNat * S + s)
    (st.cnt (ne.toNat * S + s) + 1)

def puExtractLoop (nD : ℕ) (classify : (ℕ → ℚ) → ℕ → ℤ) (center : ℤ)
    (S s : ℕ) : ℕ → ℕ → ExtractState → ExtractState
  | 0, _, st => st
  | n + 1, p, st =>
    if classify st.pos p ≠ center then
      puExtractLoop nD classify center S s n p
        (puExtractSwap nD S s p (classify st.pos p) st)
    else
      puExtractLoop nD classify center S s n (p + nD) st

/-- State of the whole extraction call: particle arrays, the per-species
`iStop` cursors, emigrant buffers and counts. -/
structure MigState where
  pos : ℕ → ℚ
  vel : ℕ → ℚ
  iStop : ℕ → ℕ
  emg : ℕ → List ℚ
  cnt : ℕ → ℕ

/-- One species pass of the extraction: run the particle loop on the live
range of species `s`; the final `pStop` yields the decremented
`iStop[s]`. -/
def puExtractSpecies (nD : ℕ) (classify : (ℕ → ℚ) → ℕ → ℤ) (center : ℤ)
    (S : ℕ) (iStart : ℕ → ℕ) (st : MigState) (s : ℕ) : MigState :=
  let r := puExtractLoop nD classify center S s (st.iStop s - iStart s)
    (iStart s * nD) ⟨st.pos, st.vel, st.iStop s * nD, st.emg, st.cnt⟩
  { pos := r.pos, vel := r.vel,
    iStop := Function.update st.iStop s (r.pStop / nD),
    emg := r.emg, cnt := r.cnt }

/-- Common body of both extraction functions: reset the emigrant cursors,
zero all counts (`alSetAll(nEmigrants, nSpecies*nNeighbors, 0)`), then
process the species in order. -/
def puExtractEmigrantsGen (nD : ℕ) (classify : (ℕ → ℚ) → ℕ → ℤ)
    (center : ℤ) (S : ℕ) (iStart : ℕ → ℕ) (pos vel : ℕ → ℚ)
    (iStop : ℕ → ℕ) : MigState :=
  (List.range S).foldl (puExtractSpecies nD classify center S iStart)
    ⟨pos, vel, iStop, fun _ => [], fun _ => 0⟩

/-- `puExtractEmigrants3D` (pusher.c, lines 256–318). -/
def puExtractEmigrants3D (thr : ℕ → ℚ) (center : ℤ) (S : ℕ)
    (iStart iStop : ℕ → ℕ) (pos vel : ℕ → ℚ) : MigState :=
  puExtractEmigrantsGen 3 (puClassify3D thr) center S iStart pos vel iStop

/-- `puExtractEmigrantsND` (pusher.c, lines 322–370). -/
def puExtractEmigrantsND (nD : ℕ) (thr : ℕ → ℚ) (center : ℤ) (S : ℕ)
    (iStart iStop : ℕ → ℕ) (pos vel : ℕ → ℚ) : MigState :=
  puExtractEmigrantsGen nD (puClassifyND nD thr) center S iStart pos vel iStop

lemma sum_update_incr (N : ℕ) (f : ℕ → ℕ) (S s b : ℕ) (hS : 1 ≤ S)
    (hb : b < N) :
    (∑ x ∈ Finset.range N,
        Function.update f (b * S + s) (f (b * S + s) + 1) (x * S + s))
      = (∑ x ∈ Finset.range N, f (x * S + s)) + 1 := by
  have hb' : b ∈ Finset.range N := Finset.mem_range.mpr hb
  rw [← Finset.insert_erase hb', Finset.sum_insert (Finset.not_mem_erase _ _),
    Finset.sum_insert (Finset.not_mem_erase _ _), Function.update_same]
  have hrest : ∑ x ∈ (Finset.range N).erase b,
      Function.update f (b * S + s) (f (b * S + s) + 1) (x * S + s)
        = ∑ x ∈ (Finset.range N).erase b, f (x * S + s) := by
    refine Finset.sum_congr rfl (fun x hx => ?_)
    have hxb : x ≠ b := Finset.ne_of_mem_erase hx
    refine Function.update_noteq (fun h => hxb ?_) _ _
    have hxS : x * S = b * S := by omega
    exact Nat.eq_of_mul_eq_mul_right (by omega) hxS
  rw [hrest]
  omega

/-- Bookkeeping invariant of the extraction loop: writing `n` for the fuel
(the remaining particle count), some `m ≤ n` particles survive; `pStop`
ends at `p + nD*m` and exactly `n - m` emigrants are added to the species-s
buckets of `nEmigrants`. -/
lemma puExtractLoop_spec (nD : ℕ) (classify : (ℕ → ℚ) → ℕ → ℤ)
    (center : ℤ) (S s N : ℕ) (hS : s < S)
    (hclass : ∀ pos p, 0 ≤ classify pos p ∧ (classify pos p).toNat < N) :
    ∀ (n p : ℕ) (st : ExtractState), st.pStop = p + nD * n →
      ∃ m : ℕ, m ≤ n
        ∧ (puExtractLoop nD classify center S s n p st).pStop = p + nD * m
        ∧ (∑ b ∈ Finset.range N,
            (puExtractLoop nD classify center S s n p st).cnt (b * S + s))
          = (∑ b ∈ Finset.range N, st.cnt (b * S + s)) + (n - m) := by
  intro n
  induction n with
  | zero =>
    intro p st hp
    exact ⟨0, le_refl 0, by simpa [puExtractLoop] using hp,
      by simp [puExtractLoop]⟩
  | succ n ih =>
    intro p st hp
    have harith : nD * (n + 1) = nD * n + nD := by ring
    simp only [puExtractLoop]
    by_cases hne : classify st.pos p ≠ center
    · rw [if_pos hne]
      have hrel1 : (puExtractSwap nD S s p (classify st.pos p) st).pStop
          = p + nD * n := by
        simp only [puExtractSwap]
        omega
      obtain ⟨m, hm, hstop, hsum⟩ :=
        ih p (puExtractSwap nD S s p (classify st.pos p) st) hrel1
      refine ⟨m, by omega, hstop, ?_⟩
      rw [hsum]
      have hcnt : (puExtractSwap nD S s p (classify st.pos p) st).cnt
          = Function.update st.cnt ((classify st.pos p).toNat * S + s)
              (st.cnt ((classify st.pos p).toNat * S + s) + 1) := rfl
      rw [hcnt, sum_update_incr N st.cnt S s _ (by omega)
        (hclass st.pos p).2]
      omega
    · rw [if_neg hne]
      have hrel1 : st.pStop = (p + nD) + nD * n := by omega
      obtain ⟨m, hm, hstop, hsum⟩ := ih (p + nD) st hrel1
      refine ⟨m + 1, by omega, ?_, ?_⟩
      · rw [hstop]; ring
      · rw [hsum]; omega

/-- The extraction loop for species `s` never touches a count bucket that
is not of the form `b*nSpecies + s`. -/
lemma puExtractLoop_cnt_ne (nD : ℕ) (classify : (ℕ → ℚ) → ℕ → ℤ)
    (center : ℤ) (S s N : ℕ)
    (hclass : ∀ pos p, 0 ≤ classify pos p ∧ (classify pos p).toNat < N) :
    ∀ (n p : ℕ) (st : ExtractState) (j : ℕ),
      (∀ b, b < N → j ≠ b * S + s) →
      (puExtractLoop nD classify center S s n p st).cnt j = st.cnt j := by
  intro n
  induction n with
  | zero => intro p st j _; rfl
  | succ n ih =>
    intro p st j hj
    simp only [puExtractLoop]
    by_cases hne : classify st.pos p ≠ center
    · rw [if_pos hne, ih p _ j hj]
      exact Function.update_noteq (hj _ (hclass st.pos p).2) _ _
    · rw [if_neg hne]
      exact ih (p + nD) st j hj

/-- A species pass for `t ≠ s` changes neither `iStop[s]` nor the
species-`s` count buckets. -/
lemma puExtractSpecies_other (nD : ℕ) (classify : (ℕ → ℚ) → ℕ → ℤ)
    (center : ℤ) (S : ℕ) (iStart : ℕ → ℕ) (N : ℕ)
    (hclass : ∀ pos p, 0 ≤ classify pos p ∧ (classify pos p).toNat < N)
    (s t : ℕ) (hs : s < S) (ht : t < S) (hts : t ≠ s) (st : MigState) :
    (puExtractSpecies nD classify center S iStart st t).iStop s = st.iStop s
      ∧ ∀ b, b < N →
        (puExtractSpecies nD classify center S iStart st t).cnt (b * S + s)
          = st.cnt (b * S + s) := by
  constructor
  · simp only [puExtractSpecies]
    exact Function.update_noteq (fun h => hts h.symm) _ _
  · intro b hb
    simp only [puExtractSpecies]
    refine puExtractLoop_cnt_ne nD classify center S t N hclass _ _ _ _ ?_
    intro b2 hb2 heq
    have h1 : (b * S + s) % S = s := by
      rw [Nat.add_comm, Nat.add_mul_mod_self_right, Nat.mod_eq_of_lt hs]
    have h2 : (b2 * S + t) % S = t := by
      rw [Nat.add_comm, Nat.add_mul_mod_self_right, Nat.mod_eq_of_lt ht]
    rw [heq, h2] at h1
    exact hts h1

lemma puExtractFold_preserve (nD : ℕ) (classify : (ℕ → ℚ) → ℕ → ℤ)
    (center : ℤ) (S : ℕ) (iStart : ℕ → ℕ) (N : ℕ)
    (hclass : ∀ pos p, 0 ≤ classify pos p ∧ (classify pos p).toNat < N)
    (s : ℕ) (hs : s < S) :
    ∀ (ss : List ℕ), (∀ t ∈ ss, t < S ∧ t ≠ s) → ∀ (st : MigState),
      ((ss.foldl (puExtractSpecies nD classify center S iStart) st).iStop s
          = st.iStop s)
        ∧ (∀ b, b < N →
            (ss.foldl (puExtractSpecies nD classify center S iStart) st).cnt
                (b * S + s)
              = st.cnt (b * S + s)) := by
  intro ss
  induction ss with
  | nil => intro _ st; exact ⟨rfl, fun _ _ => rfl⟩
  | cons t rest ih =>
    intro hts st
    obtain ⟨htS, htne⟩ := hts t (List.mem_cons_self _ _)
    have hoth := puExtractSpecies_other nD classify center S iStart N hclass
      s t hs htS htne st
    simp only [List.foldl_cons]
    have hih := ih (fun u hu => hts u (List.mem_cons_of_mem _ hu))
      (puExtractSpecies nD classify center S iStart st t)
    exact ⟨by rw [hih.1, hoth.1],
      fun b hb => by rw [hih.2 b hb, hoth.2 b hb]⟩

lemma puExtractFold_count (nD : ℕ) (classify : (ℕ → ℚ) → ℕ → ℤ)
    (center : ℤ) (S : ℕ) (iStart : ℕ → ℕ) (N : ℕ) (hnD : 1 ≤ nD)
    (hclass : ∀ pos p, 0 ≤ classify pos p ∧ (classify pos p).toNat < N)
    (s : ℕ) (hs : s < S) :
    ∀ (ss : List ℕ), ss.Nodup → s ∈ ss → (∀ t ∈ ss, t < S) →
      ∀ (st : MigState), (∀ b, b < N → st.cnt (b * S + s) = 0) →
        iStart s ≤ st.iStop s →
        ((ss.foldl (puExtractSpecies nD classify center S iStart) st).iStop s
            + (∑ b ∈ Finset.range N,
                (ss.foldl (puExtractSpecies nD classify center S iStart)
                  st).cnt (b * S + s))
          = st.iStop s)
        ∧ iStart s
            ≤ (ss.foldl (puExtractSpecies nD classify center S iStart)
                st).iStop s := by
  intro ss
  induction ss with
  | nil => intro _ hmem; exact absurd hmem (List.not_mem_nil s)
  | cons t rest ih =>
    intro hnd hmem hallS st hcnt0 hmono
    have htr : t ∉ rest := (List.nodup_cons.mp hnd).1
    have hndr : rest.Nodup := (List.nodup_cons.mp hnd).2
    simp only [List.foldl_cons]
    by_cases hts : t = s
    · subst hts
      obtain ⟨k, hk⟩ := Nat.exists_eq_add_of_le hmono
      obtain ⟨m, hm, hstop, hsum⟩ :=
        puExtractLoop_spec nD classify center S t N hs hclass
          (st.iStop t - iStart t) (iStart t * nD)
          ⟨st.pos, st.vel, st.iStop t * nD, st.emg, st.cnt⟩
          (by
            dsimp only
            rw [hk]
            have h1 : (iStart t + k) * nD = iStart t * nD + nD * k := by ring
            have h2 : iStart t + k - iStart t = k := by omega
            rw [h1, h2])
      have hzero : (∑ b ∈ Finset.range N,
          (⟨st.pos, st.vel, st.iStop t * nD, st.emg, st.cnt⟩
            : ExtractState).cnt (b * S + t)) = 0 :=
        Finset.sum_eq_zero (fun b hb => hcnt0 b (Finset.mem_range.mp hb))
      rw [hzero] at hsum
      have hdiv : (puExtractLoop nD classify center S t
          (st.iStop t - iStart t) (iStart t * nD)
          ⟨st.pos, st.vel, st.iStop t * nD, st.emg, st.cnt⟩).pStop / nD
          = iStart t + m := by
        rw [hstop]
        have h1 : iStart t * nD + nD * m = nD * (iStart t + m) := by ring
        rw [h1, Nat.mul_div_cancel_left _ (by omega : 0 < nD)]
      have hspec : (puExtractSpecies nD classify center S iStart st t).iStop t
          = iStart t + m := by
        simp only [puExtractSpecies]
        rw [Function.update_same, hdiv]
      have hspecCnt : ∀ b, b < N →
          (puExtractSpecies nD classify center S iStart st t).cnt (b * S + t)
            = (puExtractLoop nD classify center S t (st.iStop t - iStart t)
                (iStart t * nD)
                ⟨st.pos, st.vel, st.iStop t * nD, st.emg, st.cnt⟩).cnt
                (b * S + t) := by
        intro b hb
        simp only [puExtractSpecies]
      have hpres := puExtractFold_preserve nD classify center S iStart N
        hclass t hs rest
        (fun u hu => ⟨hallS u (List.mem_cons_of_mem _ hu),
          fun h => htr (h ▸ hu)⟩)
        (puExtractSpecies nD classify center S iStart st t)
      have hsumEq : (∑ b ∈ Finset.range N,
          (rest.foldl (puExtractSpecies nD classify center S iStart)
            (puExtractSpecies nD classify center S iStart st t)).cnt
            (b * S + t))
          = k - m := by
        rw [Finset.sum_congr rfl
          (fun b hb => hpres.2 b (Finset.mem_range.mp hb))]
        rw [Finset.sum_congr rfl
          (fun b hb => hspecCnt b (Finset.mem_range.mp hb))]
        rw [hsum]
        have h2 : st.iStop t - iStart t = k := by omega
        omega
      rw [hpres.1, hsumEq, hspec]
      constructor
      · omega
      · omega
    · have hsrest : s ∈ rest := by
        rcases List.mem_cons.mp hmem with h | h
        · exact absurd h.symm hts
        · exact h
      have hoth := puExtractSpecies_other nD classify center S iStart N hclass
        s t hs (hallS t (List.mem_cons_self _ _)) hts st
      have hih := ih hndr hsrest
        (fun u hu => hallS u (List.mem_cons_of_mem _ hu))
        (puExtractSpecies nD classify center S iStart st t)
        (fun b hb => by rw [hoth.2 b hb]; exact hcnt0 b hb)
        (by rw [hoth.1]; exact hmono)
      rw [hoth.1] at hih
      exact hih

/-- C6: after `puExtractEmigrants3D` (respectively `puExtractEmigrantsND`)
returns, the live count `iStop[s] - iStart[s]` of each species `s` equals
its value before the call minus the total number of species-`s` emigrants
recorded, `Σ_n nEmigrants[n*nSpecies+s]` over the `3^D` neighbors (so it
is unchanged when no particle crosses a migration threshold). -/
theorem c6_extraction_preserves_counts
    (thr : ℕ → ℚ) (center : ℤ) (S : ℕ) (iStart iStop : ℕ → ℕ)
    (pos vel : ℕ → ℚ) (s : ℕ) (hs : s < S) (hmono : iStart s ≤ iStop s)
    (nD : ℕ) (hnD : 1 ≤ nD) (thrN : ℕ → ℚ) (centerN : ℤ) (SN : ℕ)
    (iStartN iStopN : ℕ → ℕ) (posN velN : ℕ → ℚ) (sN : ℕ) (hsN : sN < SN)
    (hmonoN : iStartN sN ≤ iStopN sN) :
    ((puExtractEmigrants3D thr center S iStart iStop pos vel).iStop s
          - iStart s
        = (iStop s - iStart s)
          - ∑ b ∈ Finset.range 27,
              (puExtractEmigrants3D thr center S iStart iStop pos vel).cnt
                (b * S + s))
      ∧ ((puExtractEmigrantsND nD thrN centerN SN iStartN iStopN posN
            velN).iStop sN - iStartN sN
          = (iStopN sN - iStartN sN)
            - ∑ b ∈ Finset.range (3 ^ nD),
                (puExtractEmigrantsND nD thrN centerN SN iStartN iStopN posN
                  velN).cnt (b * SN + sN)) := by
  constructor
  · obtain ⟨h1, h2⟩ := puExtractFold_count 3 (puClassify3D thr) center S
      iStart 27 (by norm_num) (fun pos p => puClassify3D_bounds thr pos p)
      s hs (List.range S) (List.nodup_range S) (List.mem_range.mpr hs)
      (fun t ht => List.mem_range.mp ht)
      ⟨pos, vel, iStop, fun _ => [], fun _ => 0⟩ (fun _ _ => rfl) hmono
    dsimp only at h1 h2
    unfold puExtractEmigrants3D puExtractEmigrantsGen
    omega
  · obtain ⟨h1, h2⟩ := puExtractFold_count nD (puClassifyND nD thrN) centerN
      SN iStartN (3 ^ nD) hnD
      (fun pos p => puClassifyND_bounds nD thrN pos p)
      sN hsN (List.range SN) (List.nodup_range SN) (List.mem_range.mpr hsN)
      (fun t ht => List.mem_range.mp ht)
      ⟨posN, velN, iStopN, fun _ => [], fun _ => 0⟩ (fun _ _ => rfl) hmonoN
    dsimp only at h1 h2
    unfold puExtractEmigrantsND puExtractEmigrantsGen
    omega

theorem c6_extraction_preserves_counts_witness :
    ((puExtractEmigrants3D (fun _ => 10) 13 1 (fun _ => 0) (fun _ => 2)
          (fun _ => 1) (fun _ => 0)).iStop 0 - (fun _ : ℕ => 0) 0
        = ((fun _ : ℕ => 2) 0 - (fun _ : ℕ => 0) 0)
          - ∑ b ∈ Finset.range 27,
              (puExtractEmigrants3D (fun _ => 10) 13 1 (fun _ => 0)
                (fun _ => 2) (fun _ => 1) (fun _ => 0)).cnt (b * 1 + 0))
      ∧ ((puExtractEmigrantsND 2 (fun _ => 10) 4 1 (fun _ => 0) (fun _ => 2)
            (fun _ => 1) (fun _ => 0)).iStop 0 - (fun _ : ℕ => 0) 0
          = ((fun _ : ℕ => 2) 0 - (fun _ : ℕ => 0) 0)
            - ∑ b ∈ Finset.range (3 ^ 2),
                (puExtractEmigrantsND 2 (fun _ => 10) 4 1 (fun _ => 0)
                  (fun _ => 2) (fun _ => 1) (fun _ => 0)).cnt (b * 1 + 0)) :=
  c6_extraction_preserves_counts (fun _ => 10) 13 1 (fun _ => 0) (fun _ => 2)
    (fun _ => 1) (fun _ => 0) 0 (by norm_num) (by norm_num)
    2 (by norm_num) (fun _ => 10) 4 1 (fun _ => 0) (fun _ => 2)
    (fun _ => 1) (fun _ => 0) 0 (by norm_num) (by norm_num)

/-! ### Particle acceleration (`pusher.c`, `puAcc3D1` / `puInterp3D1`) -/

/-- Modelled from the spec: `gMul` (grid.c, not under `src/`; spec §4.6
"scale E by that species' renormE") on a function-represented value
array: multiply every element in place. -/
def gMulGrid (v : ℤ → ℚ) (k : ℚ) : ℤ → ℚ := fun g => v g * k

/-- `puInterp3D1` (pusher.c, lines 508–540): trilinear interpolation of the
three-component field at a particle position; the base node offset is
`p = 3j + k*sizeProd[2] + l*sizeProd[3]`, the axis-1 neighbor sits at
`p + 3`, and component `v` is read at offset `+v`. -/
def puInterp3D1 (pos0 pos1 pos2 : ℚ) (val : ℤ → ℚ) (sp2 sp3 : ℤ)
    (v : ℤ) : ℚ :=
  let j := cTrunc pos0
  let k := cTrunc pos1
  let l := cTrunc pos2
  let x := pos0 - (j : ℚ)
  let y := pos1 - (k : ℚ)
  let z := pos2 - (l : ℚ)
  let xcomp := 1 - x
  let ycomp := 1 - y
  let zcomp := 1 - z
  let p := j * 3 + k * sp2 + l * sp3
  let pj := p + 3
  let pk := p + sp2
  let pjk := pk + 3
  let pl := p + sp3
  let pjl := pl + 3
  let pkl := pl + sp2
  let pjkl := pkl + 3
  zcomp * (ycomp * (xcomp * val (p + v) + x * val (pj + v))
      + y * (xcomp * val (pk + v) + x * val (pjk + v)))
    + z * (ycomp * (xcomp * val (pl + v) + x * val (pjl + v))
      + y * (xcomp * val (pkl + v) + x * val (pjkl + v)))

/-- Interpolation is linear in the field values. -/
lemma puInterp3D1_gMulGrid (pos0 pos1 pos2 : ℚ) (val : ℤ → ℚ)
    (sp2 sp3 : ℤ) (v : ℤ) (c : ℚ) :
    puInterp3D1 pos0 pos1 pos2 (gMulGrid val c) sp2 sp3 v
      = puInterp3D1 pos0 pos1 pos2 val sp2 sp3 v * c := by
  simp only [puInterp3D1, gMulGrid]
  ring

/-- One particle of the `puAcc3D1` inner loop (pusher.c, lines 83–87):
interpolate `dv` at the particle position and add it to the three velocity
components. -/
def puAccParticle (pos : ℕ → ℚ) (val : ℤ → ℚ) (sp2 sp3 : ℤ) (i : ℕ)
    (vel : ℕ → ℚ) : ℕ → ℚ :=
  (List.range 3).foldl
    (fun w d => Function.update w (i * 3 + d)
      (w (i * 3 + d) + puInterp3D1 (pos (i * 3)) (pos (i * 3 + 1))
        (pos (i * 3 + 2)) val sp2 sp3 (d : ℤ))) vel

/-- The particle loop of `puAcc3D1` for one species: `n` particles starting
at particle index `i0`. -/
def puAccLoop (pos : ℕ → ℚ) (val : ℤ → ℚ) (sp2 sp3 : ℤ) :
    ℕ → ℕ → (ℕ → ℚ) → (ℕ → ℚ)
  | 0, _, vel => vel
  | n + 1, i, vel =>
    puAccLoop pos val sp2 sp3 n (i + 1) (puAccParticle pos val sp2 sp3 i vel)

/-- `puAcc3D1` (pusher.c, lines 68–92): for each species in order,
accelerate its particles against the current field, then rescale the whole
field in place by `renormE[s]` (`gMul(E, pop->renormE[s])`). -/
def puAcc3D1 (S : ℕ) (iStart iStop : ℕ → ℕ) (renormE : ℕ → ℚ)
    (pos : ℕ → ℚ) (sp2 sp3 : ℤ) (vel : ℕ → ℚ) (Eval : ℤ → ℚ) :
    (ℕ → ℚ) × (ℤ → ℚ) :=
  (List.range S).foldl
    (fun st t =>
      (puAccLoop pos st.2 sp2 sp3 (iStop t - iStart t) (iStart t) st.1,
        gMulGrid st.2 (renormE t)))
    (vel, Eval)

lemma puAccParticle_apply (pos : ℕ → ℚ) (val : ℤ → ℚ) (sp2 sp3 : ℤ)
    (j i d : ℕ) (hd : d < 3) (vel : ℕ → ℚ) :
    puAccParticle pos val sp2 sp3 j vel (i * 3 + d)
      = if i = j then
          vel (i * 3 + d) + puInterp3D1 (pos (i * 3)) (pos (i * 3 + 1))
            (pos (i * 3 + 2)) val sp2 sp3 (d : ℤ)
        else vel (i * 3 + d) := by
  have hmap : puAccParticle pos val sp2 sp3 j vel
      = ((List.range 3).map (fun e => j * 3 + e)).foldl
          (fun w q =>
            Function.update w q
              (w q + puInterp3D1 (pos (j * 3)) (pos (j * 3 + 1))
                (pos (j * 3 + 2)) val sp2 sp3 ((q - j * 3 : ℕ) : ℤ))) vel := by
    rw [puAccParticle, List.foldl_map]
    congr 1
    funext w e
    rw [Nat.add_sub_cancel_left]
  have hnd : (((List.range 3).map (fun e => j * 3 + e))).Nodup :=
    (List.nodup_range 3).map fun a b h => by omega
  rw [hmap,
    foldl_update_pointwise
      (fun q x => x + puInterp3D1 (pos (j * 3)) (pos (j * 3 + 1))
        (pos (j * 3 + 2)) val sp2 sp3 ((q - j * 3 : ℕ) : ℤ))
      _ hnd vel (i * 3 + d)]
  by_cases hij : i = j
  · subst hij
    have hmem : i * 3 + d ∈ (List.range 3).map (fun e => i * 3 + e) := by
      simp only [List.mem_map, List.mem_range]
      exact ⟨d, hd, rfl⟩
    have hsub : i * 3 + d - i * 3 = d := by omega
    simp [hmem, hsub]
  · have hmem : i * 3 + d ∉ (List.range 3).map (fun e => j * 3 + e) := by
      simp only [List.mem_map, List.mem_range]
      rintro ⟨e, he, heq⟩
      exact hij (block_eq hd he heq.symm).1
    simp [hmem, hij]

lemma puAccLoop_apply (pos : ℕ → ℚ) (val : ℤ → ℚ) (sp2 sp3 : ℤ) :
    ∀ (n i0 : ℕ) (vel : ℕ → ℚ) (i d : ℕ), d < 3 →
      puAccLoop pos val sp2 sp3 n i0 vel (i * 3 + d)
        = if i0 ≤ i ∧ i < i0 + n then
            vel (i * 3 + d) + puInterp3D1 (pos (i * 3)) (pos (i * 3 + 1))
              (pos (i * 3 + 2)) val sp2 sp3 (d : ℤ)
          else vel (i * 3 + d) := by
  intro n
  induction n with
  | zero =>
    intro i0 vel i d hd
    simp only [puAccLoop]
    rw [if_neg]
    omega
  | succ n ih =>
    intro i0 vel i d hd
    simp only [puAccLoop]
    rw [ih (i0 + 1) _ i d hd, puAccParticle_apply _ _ _ _ _ _ _ hd]
    split_ifs <;> first | rfl | omega

/-- Species windows are separated: `iStop a ≤ iStart b` for `a < b`. -/
lemma window_chain (iStart iStop : ℕ → ℕ) (S : ℕ)
    (hmono : ∀ t, t < S → iStart t ≤ iStop t)
    (hsep : ∀ t, t + 1 < S → iStop t ≤ iStart (t + 1)) :
    ∀ a b, b < S → a < b → iStop a ≤ iStart b := by
  intro a b
  induction b with
  | zero => intro _ h; exact absurd h (Nat.not_lt_zero a)
  | succ b ihb =>
    intro hbS hab
    rcases Nat.lt_succ_iff_lt_or_eq.mp hab with h | h
    · exact le_trans (ihb (by omega) h)
        (le_trans (hmono b (by omega)) (hsep b hbS))
    · subst h; exact hsep a hbS

lemma puAccFold_untouched (iStart iStop : ℕ → ℕ) (renormE : ℕ → ℚ)
    (pos : ℕ → ℚ) (sp2 sp3 : ℤ) :
    ∀ (ss : List ℕ) (velc : ℕ → ℚ) (Ec : ℤ → ℚ) (i d : ℕ), d < 3 →
      (∀ t ∈ ss, i < iStart t ∨ iStop t ≤ i) →
      ((ss.foldl
          (fun st t =>
            (puAccLoop pos st.2 sp2 sp3 (iStop t - iStart t) (iStart t) st.1,
              gMulGrid st.2 (renormE t)))
          (velc, Ec)).1) (i * 3 + d)
        = velc (i * 3 + d) := by
  intro ss
  induction ss with
  | nil => intro velc Ec i d _ _; rfl
  | cons t rest ih =>
    intro velc Ec i d hd hout
    simp only [List.foldl_cons]
    rw [ih _ _ i d hd (fun u hu => hout u (List.mem_cons_of_mem _ hu))]
    rw [puAccLoop_apply _ _ _ _ _ _ _ _ _ hd, if_neg]
    have := hout t (List.mem_cons_self _ _)
    omega

lemma puAccFold_spec (iStart iStop : ℕ → ℕ) (renormE : ℕ → ℚ)
    (pos : ℕ → ℚ) (sp2 sp3 : ℤ) (S : ℕ)
    (hmono : ∀ t, t < S → iStart t ≤ iStop t)
    (hsep : ∀ t, t + 1 < S → iStop t ≤ iStart (t + 1)) :
    ∀ (k a : ℕ), a + k ≤ S → ∀ (velc : ℕ → ℚ) (Ec : ℤ → ℚ),
      (((List.range' a k).foldl
          (fun st t =>
            (puAccLoop pos st.2 sp2 sp3 (iStop t - iStart t) (iStart t) st.1,
              gMulGrid st.2 (renormE t)))
          (velc, Ec)).2
        = fun g => Ec g * ∏ t ∈ Finset.range k, renormE (a + t))
      ∧ ∀ (s : ℕ), a ≤ s → s < a + k →
          ∀ (i : ℕ), iStart s ≤ i → i < iStop s → ∀ (d : ℕ), d < 3 →
          ((List.range' a k).foldl
              (fun st t =>
                (puAccLoop pos st.2 sp2 sp3 (iStop t - iStart t) (iStart t)
                  st.1, gMulGrid st.2 (renormE t)))
              (velc, Ec)).1 (i * 3 + d)
            = velc (i * 3 + d)
              + (∏ t ∈ Finset.range (s - a), renormE (a + t))
                * puInterp3D1 (pos (i * 3)) (pos (i * 3 + 1))
                    (pos (i * 3 + 2)) Ec sp2 sp3 (d : ℤ) := by
  intro k
  induction k with
  | zero =>
    intro a _ velc Ec
    constructor
    · funext g; simp
    · intro s hsa hsk; omega
  | succ k ih =>
    intro a hak velc Ec
    rw [List.range'_succ]
    simp only [List.foldl_cons]
    have hih := ih (a + 1) (by omega)
      (puAccLoop pos Ec sp2 sp3 (iStop a - iStart a) (iStart a) velc)
      (gMulGrid Ec (renormE a))
    constructor
    · rw [hih.1]
      funext g
      rw [Finset.prod_range_succ']
      simp only [gMulGrid, Nat.add_zero]
      have hcongr : (∏ t ∈ Finset.range k, renormE (a + (t + 1)))
          = ∏ t ∈ Finset.range k, renormE (a + 1 + t) := by
        refine Finset.prod_congr rfl (fun t _ => ?_)
        congr 1
        omega
      rw [← hcongr]
      ring
    · intro s hsa hsk i hlo hhi d hd
      by_cases hsa2 : s = a
      · subst hsa2
        have hout : ∀ t ∈ List.range' (s + 1) k,
            i < iStart t ∨ iStop t ≤ i := by
          intro t ht
          have hmem := List.mem_range'_1.mp ht
          left
          exact lt_of_lt_of_le hhi
            (window_chain iStart iStop S hmono hsep s t (by omega) (by omega))
        rw [puAccFold_untouched iStart iStop renormE pos sp2 sp3 _ _ _ i d hd
          hout]
        rw [puAccLoop_apply _ _ _ _ _ _ _ _ _ hd, if_pos (by omega)]
        simp
      · have hsa3 : a + 1 ≤ s := by omega
        rw [hih.2 s hsa3 (by omega) i hlo hhi d hd]
        rw [puAccLoop_apply _ _ _ _ _ _ _ _ _ hd, if_neg]
        · rw [puInterp3D1_gMulGrid]
          have hprod : (∏ t ∈ Finset.range (s - a), renormE (a + t))
              = (∏ t ∈ Finset.range (s - (a + 1)), renormE (a + 1 + t))
                * renormE a := by
            have hs1 : s - a = (s - (a + 1)) + 1 := by omega
            rw [hs1, Finset.prod_range_succ']
            simp only [Nat.add_zero]
            refine congrArg (· * renormE a) ?_
            refine Finset.prod_congr rfl (fun t _ => ?_)
            congr 1
            omega
          rw [hprod]
          ring
        · have hsep2 : iStop a ≤ iStart s :=
            window_chain iStart iStop S hmono hsep a s (by omega) (by omega)
          omega

/-- C3 (amended): `puAcc3D1` rescales `E` in place only AFTER a species'
particles are pushed, so a species-`s` particle receives the interpolated
entry-time field times the product of the renormalization factors of the
species processed before it: `v ← v + (Π_{t<s} renormE[t]) · E_in(pos)`;
on exit the field holds `E_in · Π_{t<S} renormE[t]`. -/
theorem c3_acceleration_update_amended (S : ℕ) (iStart iStop : ℕ → ℕ)
    (renormE : ℕ → ℚ) (pos : ℕ → ℚ) (sp2 sp3 : ℤ) (vel : ℕ → ℚ)
    (Eval : ℤ → ℚ)
    (hmono : ∀ t, t < S → iStart t ≤ iStop t)
    (hsep : ∀ t, t + 1 < S → iStop t ≤ iStart (t + 1))
    (s : ℕ) (hs : s < S) (i : ℕ) (hlo : iStart s ≤ i) (hhi : i < iStop s)
    (d : ℕ) (hd : d < 3) :
    ((puAcc3D1 S iStart iStop renormE pos sp2 sp3 vel Eval).1 (i * 3 + d)
        = vel (i * 3 + d)
          + (∏ t ∈ Finset.range s, renormE t)
            * puInterp3D1 (pos (i * 3)) (pos (i * 3 + 1)) (pos (i * 3 + 2))
                Eval sp2 sp3 (d : ℤ))
      ∧ (puAcc3D1 S iStart iStop renormE pos sp2 sp3 vel Eval).2
          = fun g => Eval g * ∏ t ∈ Finset.range S, renormE t := by
  have hspec := puAccFold_spec iStart iStop renormE pos sp2 sp3 S hmono hsep
    S 0 (by omega) vel Eval
  have hzero : ∀ k : ℕ, (∏ t ∈ Finset.range k, renormE (0 + t))
      = ∏ t ∈ Finset.range k, renormE t := by
    intro k
    refine Finset.prod_congr rfl (fun t _ => ?_)
    congr 1
    omega
  constructor
  · have h2 := hspec.2 s (by omega) (by omega) i hlo hhi d hd
    rw [Nat.sub_zero, hzero s] at h2
    rw [puAcc3D1, List.range_eq_range']
    exact h2
  · have h1 := hspec.1
    rw [hzero S] at h1
    rw [puAcc3D1, List.range_eq_range']
    exact h1

theorem c3_acceleration_update_amended_witness :
    ((puAcc3D1 1 (fun _ => 0) (fun _ => 1) (fun _ => 2) (fun _ => 3/2)
        12 48 (fun _ => 0) (fun _ => 1)).1 (0 * 3 + 0)
        = (fun _ : ℕ => (0 : ℚ)) (0 * 3 + 0)
          + (∏ t ∈ Finset.range 0, (fun _ : ℕ => (2 : ℚ)) t)
            * puInterp3D1 ((fun _ : ℕ => (3/2 : ℚ)) (0 * 3))
                ((fun _ : ℕ => (3/2 : ℚ)) (0 * 3 + 1))
                ((fun _ : ℕ => (3/2 : ℚ)) (0 * 3 + 2))
                (fun _ => 1) 12 48 ((0 : ℕ) : ℤ))
      ∧ (puAcc3D1 1 (fun _ => 0) (fun _ => 1) (fun _ => 2) (fun _ => 3/2)
          12 48 (fun _ => 0) (fun _ => 1)).2
          = fun g => (fun _ : ℤ => (1 : ℚ)) g
              * ∏ t ∈ Finset.range 1, (fun _ : ℕ => (2 : ℚ)) t :=
  c3_acceleration_update_amended 1 (fun _ => 0) (fun _ => 1) (fun _ => 2)
    (fun _ => 3/2) 12 48 (fun _ => 0) (fun _ => 1)
    (fun _ _ => by norm_num) (fun _ h => by omega)
    0 (by norm_num) 0 (by norm_num) (by norm_num) 0 (by norm_num)

/-- C3 (counterexample to the claim as stated): one species with
`renormE[0] = 2`, one particle at `(3/2, 3/2, 3/2)` in a constant unit
field: the code adds the unscaled entry-time interpolation `1` to the
velocity (the `gMul` rescale only happens after the species is pushed),
while the claim prescribes `renormE[0]·E_in(pos) = 2`. -/
theorem c3_per_species_renorm_counterexample :
    (puAcc3D1 1 (fun _ => 0) (fun _ => 1) (fun _ => 2) (fun _ => 3/2)
        12 48 (fun _ => 0) (fun _ => 1)).1 0 = 1
      ∧ 2 * puInterp3D1 (3/2) (3/2) (3/2) (fun _ => 1) 12 48 0 = 2
      ∧ (1 : ℚ) ≠ 0 + 2 := by
  refine ⟨?_, ?_, by norm_num⟩
  · have hspec := puAccFold_spec (fun _ => 0) (fun _ => 1) (fun _ => 2)
      (fun _ => 3/2) 12 48 1 (fun _ _ => by norm_num) (fun _ h => by omega)
      1 0 (by omega) (fun _ => 0) (fun _ => 1)
    have h2 := hspec.2 0 (by omega) (by omega) 0 (by norm_num) (by norm_num)
      0 (by norm_num)
    show (puAcc3D1 1 (fun _ => 0) (fun _ => 1) (fun _ => 2) (fun _ => 3/2)
        12 48 (fun _ => 0) (fun _ => 1)).1 (0 * 3 + 0) = 1
    rw [puAcc3D1, List.range_eq_range']
    rw [h2]
    simp only [Finset.range_zero, Finset.prod_empty, one_mul, zero_add]
    rw [puInterp3D1, cTrunc]
    norm_num
  · rw [puInterp3D1, cTrunc]
    norm_num

/-! ### Jacobi smoother (`multigrid.c`, `jacobian`) -/

/-- `longIntArrCumProd` (assumed array primitive, spec §1):
`sizeProd[0] = 1`, `sizeProd[d+1] = sizeProd[d] * size[d]`. -/
def sizeProdOf (size : ℕ → ℤ) : ℕ → ℤ
  | 0 => 1
  | d + 1 => sizeProdOf size d * size d

/-- Modelled from the spec: `gSwapGhostsDim` (grid.c, not under `src/`;
spec §4.1): single-subdomain periodic halo exchange along axis `d` with
one ghost layer on each side — after the exchange the lower ghost face
(coordinate 0) holds the top interior face (coordinate `size[d]-2`) and
the upper ghost face (coordinate `size[d]-1`) holds the bottom interior
face (coordinate 1); every other node is untouched. -/
def gSwapGhostsDim (size sizeProd : ℕ → ℤ) (d : ℕ) (v : ℤ → ℚ) : ℤ → ℚ :=
  fun g =>
    if g / sizeProd d % size d = 0 then v (g + (size d - 2) * sizeProd d)
    else if g / sizeProd d % size d = size d - 1 then
      v (g - (size d - 2) * sizeProd d)
    else v g

/-- One relaxation cycle of `jacobian` (multigrid.c, lines 338–368): sweep
the whole array with the five-point stencil into the scratch buffer, copy
it back, pin the normalization node `3*sizeProd[1] + 3*sizeProd[2]` to 0,
then halo-exchange every axis `d = 1..rank-1`. -/
def jacobianCycle (rank : ℕ) (size sizeProd : ℕ → ℤ) (rhoVal : ℤ → ℚ)
    (phiVal : ℤ → ℚ) : ℤ → ℚ :=
  let tempVal : ℤ → ℚ := fun g =>
    0.25 * (phiVal (g + sizeProd 1) + phiVal (g - sizeProd 1)
      + phiVal (g + sizeProd 2) + phiVal (g - sizeProd 2) - rhoVal g)
  let copied : ℤ → ℚ := fun q =>
    if 0 ≤ q ∧ q < sizeProd rank then tempVal q else phiVal q
  let pinned := Function.update copied (3 * sizeProd 1 + 3 * sizeProd 2) 0
  (List.range' 1 (rank - 1)).foldl
    (fun v d => gSwapGhostsDim size sizeProd d v) pinned

/-- `jacobian` (multigrid.c, lines 322–371): `nCycles` cycles in order. -/
def jacobian (rank : ℕ) (size sizeProd : ℕ → ℤ) (rhoVal : ℤ → ℚ) :
    ℕ → (ℤ → ℚ) → (ℤ → ℚ)
  | 0, phiVal => phiVal
  | c + 1, phiVal =>
    jacobian rank size sizeProd rhoVal c
      (jacobianCycle rank size sizeProd rhoVal phiVal)

/-- On a rank-3 grid with both spatial sizes at least 5, the halo exchange
leaves the normalization node alone: its coordinates along axes 1 and 2
are 3, strictly between the ghost faces. -/
lemma gSwap_preserves_normalize (size : ℕ → ℤ) (h0 : 1 ≤ size 0)
    (h1 : 5 ≤ size 1) (h2 : 5 ≤ size 2) (d : ℕ) (hd : d = 1 ∨ d = 2)
    (v : ℤ → ℚ) :
    gSwapGhostsDim size (sizeProdOf size) d v
        (3 * sizeProdOf size 1 + 3 * sizeProdOf size 2)
      = v (3 * sizeProdOf size 1 + 3 * sizeProdOf size 2) := by
  have hsp1 : sizeProdOf size 1 = size 0 := by
    simp [sizeProdOf]
  have hsp2 : sizeProdOf size 2 = size 0 * size 1 := by
    simp [sizeProdOf]
  rcases hd with hd | hd
  · subst hd
    rw [gSwapGhostsDim]
    have hform : 3 * sizeProdOf size 1 + 3 * sizeProdOf size 2
        = size 0 * (3 + 3 * size 1) := by
      rw [hsp1, hsp2]; ring
    have hdiv : (3 * sizeProdOf size 1 + 3 * sizeProdOf size 2)
        / sizeProdOf size 1 = 3 + 3 * size 1 := by
      rw [hform, hsp1, Int.mul_ediv_cancel_left _ (by omega : size 0 ≠ 0)]
    have hmod : (3 + 3 * size 1) % size 1 = 3 := by
      have hform2 : 3 + 3 * size 1 = 3 + size 1 * 3 := by ring
      rw [hform2, Int.add_mul_emod_self_left,
        Int.emod_eq_of_lt (by norm_num) (by omega)]
    rw [hdiv, hmod, if_neg (by omega), if_neg (by omega)]
  · subst hd
    rw [gSwapGhostsDim]
    have hform : 3 * sizeProdOf size 1 + 3 * sizeProdOf size 2
        = 3 * size 0 + (size 0 * size 1) * 3 := by
      rw [hsp1, hsp2]; ring
    have hdiv : (3 * sizeProdOf size 1 + 3 * sizeProdOf size 2)
        / sizeProdOf size 2 = 3 := by
      rw [hform, hsp2,
        Int.add_mul_ediv_left _ _ (by nlinarith : size 0 * size 1 ≠ 0)]
      rw [Int.ediv_eq_zero_of_lt (by omega) (by nlinarith)]
      norm_num
    have hmod : (3 : ℤ) % size 2 = 3 :=
      Int.emod_eq_of_lt (by norm_num) (by omega)
    rw [hdiv, hmod, if_neg (by omega), if_neg (by omega)]

lemma jacobianCycle_pins (size : ℕ → ℤ) (h0 : 1 ≤ size 0) (h1 : 5 ≤ size 1)
    (h2 : 5 ≤ size 2) (rhoVal phiVal : ℤ → ℚ) :
    jacobianCycle 3 size (sizeProdOf size) rhoVal phiVal
        (3 * sizeProdOf size 1 + 3 * sizeProdOf size 2) = 0 := by
  have hlist : List.range' 1 (3 - 1) = [1, 2] := rfl
  simp only [jacobianCycle, hlist, List.foldl_cons, List.foldl_nil]
  rw [gSwap_preserves_normalize size h0 h1 h2 2 (Or.inr rfl),
    gSwap_preserves_normalize size h0 h1 h2 1 (Or.inl rfl),
    Function.update_same]

/-- C7 (amended, rank-3 grids with one ghost layer and spatial sizes ≥ 5,
so the normalization node is interior): at the end of every one of the
`nCycles` relaxation cycles of `jacobian` the node `3*sizeProd[1] +
3*sizeProd[2]` holds exactly 0, and the ghost exchange performed
afterwards within the same cycle never changes that node's value. -/
theorem c7_jacobian_pins_normalization_amended (size : ℕ → ℤ)
    (rhoVal phiVal : ℤ → ℚ) (h0 : 1 ≤ size 0) (h1 : 5 ≤ size 1)
    (h2 : 5 ≤ size 2) (nCycles k : ℕ) (hk1 : 1 ≤ k) (hk2 : k ≤ nCycles) :
    (jacobian 3 size (sizeProdOf size) rhoVal k phiVal)
        (3 * sizeProdOf size 1 + 3 * sizeProdOf size 2) = 0
      ∧ ∀ w : ℤ → ℚ,
        ((List.range' 1 (3 - 1)).foldl
            (fun v d => gSwapGhostsDim size (sizeProdOf size) d v) w)
            (3 * sizeProdOf size 1 + 3 * sizeProdOf size 2)
          = w (3 * sizeProdOf size 1 + 3 * sizeProdOf size 2) := by
  have haux : ∀ (k : ℕ) (phi : ℤ → ℚ), 1 ≤ k →
      (jacobian 3 size (sizeProdOf size) rhoVal k phi)
        (3 * sizeProdOf size 1 + 3 * sizeProdOf size 2) = 0 := by
    intro k
    induction k with
    | zero => intro phi h; exact absurd h (by norm_num)
    | succ k ih =>
      intro phi _
      rcases Nat.eq_zero_or_pos k with hk0 | hkpos
      · subst hk0
        simp only [jacobian]
        exact jacobianCycle_pins size h0 h1 h2 rhoVal phi
      · simp only [jacobian]
        exact ih _ hkpos
  constructor
  · exact haux k phiVal hk1
  · intro w
    have hlist : List.range' 1 (3 - 1) = [1, 2] := rfl
    simp only [hlist, List.foldl_cons, List.foldl_nil]
    rw [gSwap_preserves_normalize size h0 h1 h2 2 (Or.inr rfl),
      gSwap_preserves_normalize size h0 h1 h2 1 (Or.inl rfl)]

theorem c7_jacobian_pins_normalization_amended_witness :
    (jacobian 3 (fun d => if d = 0 then 1 else 5)
        (sizeProdOf (fun d => if d = 0 then 1 else 5)) (fun _ => 0) 1
        (fun _ => 0))
        (3 * sizeProdOf (fun d => if d = 0 then 1 else 5) 1
          + 3 * sizeProdOf (fun d => if d = 0 then 1 else 5) 2) = 0
      ∧ ∀ w : ℤ → ℚ,
        ((List.range' 1 (3 - 1)).foldl
            (fun v d => gSwapGhostsDim (fun d => if d = 0 then 1 else 5)
              (sizeProdOf (fun d => if d = 0 then 1 else 5)) d v) w)
            (3 * sizeProdOf (fun d => if d = 0 then 1 else 5) 1
              + 3 * sizeProdOf (fun d => if d = 0 then 1 else 5) 2)
          = w (3 * sizeProdOf (fun d => if d = 0 then 1 else 5) 1
              + 3 * sizeProdOf (fun d => if d = 0 then 1 else 5) 2) :=
  c7_jacobian_pins_normalization_amended (fun d => if d = 0 then 1 else 5)
    (fun _ => 0) (fun _ => 0) (by norm_num) (by norm_num) (by norm_num)
    1 1 (by norm_num) (by norm_num)

/-- C7 (counterexample to the claim as stated): on a rank-3 grid of size
`[1,4,4]` the normalization node `3*sizeProd[1] + 3*sizeProd[2] = 15` is
the corner GHOST node `(3,3)`, so the halo exchange after the pin
overwrites it: with `rho` concentrated at node 5 one cycle leaves the
node at 1, not 0. -/
theorem c7_normalization_node_counterexample :
    (jacobian 3 (fun d => if d = 0 then 1 else 4)
        (sizeProdOf (fun d => if d = 0 then 1 else 4))
        (fun g => if g = 5 then -4 else 0) 1 (fun _ => 0))
        (3 * sizeProdOf (fun d => if d = 0 then 1 else 4) 1
          + 3 * sizeProdOf (fun d => if d = 0 then 1 else 4) 2) = 1
      ∧ (1 : ℚ) ≠ 0 := by
  constructor
  · show jacobian _ _ _ _ (0 + 1) _ _ = 1
    simp only [jacobian]
    have hlist : List.range' 1 (3 - 1) = [1, 2] := rfl
    have hs1 : sizeProdOf (fun d => if d = 0 then 1 else 4) 1 = 1 := rfl
    have hs2 : sizeProdOf (fun d => if d = 0 then 1 else 4) 2 = 4 := rfl
    have hs3 : sizeProdOf (fun d => if d = 0 then 1 else 4) 3 = 16 := rfl
    norm_num [jacobianCycle, hlist, hs1, hs2, hs3, gSwapGhostsDim,
      Function.update_apply]
  · norm_num

/-! ### Transfer operators (`multigrid.c`) -/

/-- `halfWeightRestrict2D` (multigrid.c, lines 669–715): walk the coarse
interior (`k`, `j` from the lower ghost count to size minus the upper
ghost count) with `c` advancing by one and the fine index `f` by two,
writing `cVal[c] = 0.125*(4 fVal[f] + the four axis neighbors)`; at each
row end `c += cKEdgeInc`, `f += fKEdgeInc`. -/
def halfWeightRestrict2D (fVal : ℤ → ℚ) (fSizeProd : ℕ → ℤ) (cVal : ℤ → ℚ)
    (cSizeProd cSize : ℕ → ℤ) (nGhostLayers : ℕ → ℤ) (rank : ℕ) : ℤ → ℚ :=
  let cKEdgeInc := nGhostLayers 2 + nGhostLayers (rank + 2)
  let fKEdgeInc := cKEdgeInc + fSizeProd 2
  let kCount := (cSize 2 - nGhostLayers (rank + 2) - nGhostLayers 2).toNat
  let jCount := (cSize 1 - nGhostLayers (rank + 1) - nGhostLayers 1).toNat
  (((List.range kCount).foldl
      (fun (st : ℤ × ℤ × (ℤ → ℚ)) _ =>
        let inner := (List.range jCount).foldl
          (fun (st2 : ℤ × ℤ × (ℤ → ℚ)) _ =>
            (st2.1 + 1, st2.2.1 + 2,
              Function.update st2.2.2 st2.1
                (0.125 * (4 * fVal st2.2.1 + fVal (st2.2.1 + fSizeProd 1)
                  + fVal (st2.2.1 - fSizeProd 1) + fVal (st2.2.1 + fSizeProd 2)
                  + fVal (st2.2.1 - fSizeProd 2)))))
          st
        (inner.1 + cKEdgeInc, inner.2.1 + fKEdgeInc, inner.2.2))
      (cSizeProd 2 + cSizeProd 1, fSizeProd 2 + fSizeProd 1, cVal))).2.2

/-- `halfWeightRestrict3D` (multigrid.c, lines 601–667): as in 2D but over
the coarse `trueSize` box, with coefficient `1/12`, center weight 6 and
six axis neighbors, and `l`-edge increments after each plane. -/
def halfWeightRestrict3D (fVal : ℤ → ℚ) (fSizeProd : ℕ → ℤ) (cVal : ℤ → ℚ)
    (cSizeProd cTrueSize : ℕ → ℤ) (nGhostLayers : ℕ → ℤ) (rank : ℕ) :
    ℤ → ℚ :=
  let cKEdgeInc := nGhostLayers 2 + nGhostLayers (rank + 2)
  let fKEdgeInc := nGhostLayers 2 + nGhostLayers (rank + 2) + fSizeProd 2
  let cLEdgeInc := (nGhostLayers 3 + nGhostLayers (rank + 3)) * cSizeProd 2
  let fLEdgeInc := (nGhostLayers 3 + nGhostLayers (rank + 3)) * fSizeProd 2
    + fSizeProd 3
  (((List.range (cTrueSize 3).toNat).foldl
      (fun (st : ℤ × ℤ × (ℤ → ℚ)) _ =>
        let plane := (List.range (cTrueSize 2).toNat).foldl
          (fun (st2 : ℤ × ℤ × (ℤ → ℚ)) _ =>
            let row := (List.range (cTrueSize 1).toNat).foldl
              (fun (st3 : ℤ × ℤ × (ℤ → ℚ)) _ =>
                (st3.1 + 1, st3.2.1 + 2,
                  Function.update st3.2.2 st3.1
                    ((1 / 12) * (6 * fVal st3.2.1
                      + fVal (st3.2.1 + fSizeProd 1)
                      + fVal (st3.2.1 - fSizeProd 1)
                      + fVal (st3.2.1 + fSizeProd 2)
                      + fVal (st3.2.1 - fSizeProd 2)
                      + fVal (st3.2.1 + fSizeProd 3)
                      + fVal (st3.2.1 - fSizeProd 3)))))
              st2
            (row.1 + cKEdgeInc, row.2.1 + fKEdgeInc, row.2.2))
          st
        (plane.1 + cLEdgeInc, plane.2.1 + fLEdgeInc, plane.2.2))
      (cSizeProd 1 * nGhostLayers 1 + cSizeProd 2 * nGhostLayers 2
          + cSizeProd 3 * nGhostLayers 3,
        fSizeProd 1 * nGhostLayers 1 + fSizeProd 2 * nGhostLayers 2
          + fSizeProd 3 * nGhostLayers 3, cVal))).2.2

/-- `bilinearProlong2D` (multigrid.c, lines 831–902): direct insertion of
the coarse interior at doubled fine stride, halo exchange along axis 2,
an accumulating (`+=`) interpolation pass along axis 2 over the even
rows, halo exchange along axis 1, and an accumulating interpolation pass
along axis 1 over all rows. -/
def bilinearProlong2D (fVal : ℤ → ℚ) (fSizeProd fSize : ℕ → ℤ)
    (cVal : ℤ → ℚ) (cSizeProd cSize : ℕ → ℤ) (nGhostLayers : ℕ → ℤ)
    (rank : ℕ) : ℤ → ℚ :=
  let cKEdgeInc := nGhostLayers 2 + nGhostLayers (rank + 2)
  let fKEdgeInc := cKEdgeInc + fSizeProd 2
  let kCount := (cSize 2 - nGhostLayers (rank + 2) - nGhostLayers 2).toNat
  let jCount := (cSize 1 - nGhostLayers (rank + 1) - nGhostLayers 1).toNat
  let inj := (((List.range kCount).foldl
      (fun (st : ℤ × ℤ × (ℤ → ℚ)) _ =>
        let inner := (List.range jCount).foldl
          (fun (st2 : ℤ × ℤ × (ℤ → ℚ)) _ =>
            (st2.1 + 1, st2.2.1 + 2,
              Function.update st2.2.2 st2.2.1 (cVal st2.1)))
          st
        (inner.1 + cKEdgeInc, inner.2.1 + fKEdgeInc, inner.2.2))
      (cSizeProd 2 + cSizeProd 1, fSizeProd 2 + fSizeProd 1, fVal))).2.2
  let ex2 := gSwapGhostsDim fSize fSizeProd 2 inj
  let passB := (((List.range ((fSize 2 + 1) / 2).toNat).foldl
      (fun (st : ℤ × (ℤ → ℚ)) _ =>
        let inner := (List.range ((fSize 1 + 1) / 2).toNat).foldl
          (fun (st2 : ℤ × (ℤ → ℚ)) _ =>
            (st2.1 + 2, Function.update st2.2 st2.1
              (st2.2 st2.1 + 0.5 * (st2.2 (st2.1 - fSizeProd 2)
                + st2.2 (st2.1 + fSizeProd 2)))))
          st
        (inner.1 + fSizeProd 2, inner.2))
      ((fSizeProd 1 : ℤ), ex2))).2
  let ex1 := gSwapGhostsDim fSize fSizeProd 1 passB
  (((List.range (fSize 2).toNat).foldl
      (fun (st : ℤ × (ℤ → ℚ)) _ =>
        (List.range ((fSize 1 + 1) / 2).toNat).foldl
          (fun (st2 : ℤ × (ℤ → ℚ)) _ =>
            (st2.1 + 2, Function.update st2.2 st2.1
              (st2.2 st2.1 + 0.5 * (st2.2 (st2.1 - fSizeProd 1)
                + st2.2 (st2.1 + fSizeProd 1)))))
          st)
      ((0 : ℤ), ex1))).2

/-- `bilinearProlong3D` (multigrid.c, lines 717–828): direct insertion over
the coarse `trueSize` box (assignment, not accumulation), then three
assignment interpolation passes along axes 3, 2, 1, each preceded by a
halo exchange along that axis, with the edge increments of the source
(pass 2 has no plane increment; pass 1 advances by `2*fSizeProd[2]` after
each plane). -/
def bilinearProlong3D (fVal : ℤ → ℚ) (fSizeProd fSize fTrueSize : ℕ → ℤ)
    (cVal : ℤ → ℚ) (cSizeProd cTrueSize : ℕ → ℤ) (nGhostLayers : ℕ → ℤ)
    (rank : ℕ) : ℤ → ℚ :=
  let cKEdgeInc := nGhostLayers 2 + nGhostLayers (rank + 2)
  let fKEdgeInc := cKEdgeInc + fSizeProd 2
  let cLEdgeInc := (nGhostLayers 3 + nGhostLayers (rank + 3)) * cSizeProd 2
  let fLEdgeInc := (nGhostLayers 3 + nGhostLayers (rank + 3)) * fSizeProd 2
    + fSizeProd 3
  let inj := (((List.range (cTrueSize 3).toNat).foldl
      (fun (st : ℤ × ℤ × (ℤ → ℚ)) _ =>
        let plane := (List.range (cTrueSize 2).toNat).foldl
          (fun (st2 : ℤ × ℤ × (ℤ → ℚ)) _ =>
            let row := (List.range (cTrueSize 1).toNat).foldl
              (fun (st3 : ℤ × ℤ × (ℤ → ℚ)) _ =>
                (st3.1 + 1, st3.2.1 + 2,
                  Function.update st3.2.2 st3.2.1 (cVal st3.1)))
              st2
            (row.1 + cKEdgeInc, row.2.1 + fKEdgeInc, row.2.2))
          st
        (plane.1 + cLEdgeInc, plane.2.1 + fLEdgeInc, plane.2.2))
      (cSizeProd 1 + cSizeProd 2 + cSizeProd 3,
        fSizeProd 1 + fSizeProd 2 + fSizeProd 3, fVal))).2.2
  let ex3 := gSwapGhostsDim fSize fSizeProd 3 inj
  let pass3 := (((List.range ((fTrueSize 3 + 1) / 2).toNat).foldl
      (fun (st : ℤ × (ℤ → ℚ)) _ =>
        let plane := (List.range ((fSize 2 + 1) / 2).toNat).foldl
          (fun (st2 : ℤ × (ℤ → ℚ)) _ =>
            let row := (List.range ((fSize 1 + 1) / 2).toNat).foldl
              (fun (st3 : ℤ × (ℤ → ℚ)) _ =>
                (st3.1 + 2, Function.update st3.2 st3.1
                  (0.5 * (st3.2 (st3.1 - fSizeProd 3)
                    + st3.2 (st3.1 + fSizeProd 3)))))
              st2
            (row.1 + fSizeProd 2, row.2))
          st
        (plane.1 + fSizeProd 3, plane.2))
      ((fSizeProd 1 + fSizeProd 2 + 2 * fSizeProd 3 : ℤ), ex3))).2
  let ex2 := gSwapGhostsDim fSize fSizeProd 2 pass3
  let pass2 := (((List.range (fTrueSize 3).toNat).foldl
      (fun (st : ℤ × (ℤ → ℚ)) _ =>
        (List.range ((fSize 2 + 1) / 2).toNat).foldl
          (fun (st2 : ℤ × (ℤ → ℚ)) _ =>
            let row := (List.range ((fSize 1 + 1) / 2).toNat).foldl
              (fun (st3 : ℤ × (ℤ → ℚ)) _ =>
                (st3.1 + 2, Function.update st3.2 st3.1
                  (0.5 * (st3.2 (st3.1 - fSizeProd 2)
                    + st3.2 (st3.1 + fSizeProd 2)))))
              st2
            (row.1 + fSizeProd 2, row.2))
          st)
      ((fSizeProd 1 + 2 * fSizeProd 2 + fSizeProd 3 : ℤ), ex2))).2
  let ex1 := gSwapGhostsDim fSize fSizeProd 1 pass2
  (((List.range (fTrueSize 3).toNat).foldl
      (fun (st : ℤ × (ℤ → ℚ)) _ =>
        let plane := (List.range (fTrueSize 2).toNat).foldl
          (fun (st2 : ℤ × (ℤ → ℚ)) _ =>
            (List.range ((fSize 1 + 1) / 2).toNat).foldl
              (fun (st3 : ℤ × (ℤ → ℚ)) _ =>
                (st3.1 + 2, Function.update st3.2 st3.1
                  (0.5 * (st3.2 (st3.1 - fSizeProd 1)
                    + st3.2 (st3.1 + fSizeProd 1)))))
              st2)
          st
        (plane.1 + 2 * fSizeProd 2, plane.2))
      ((2 * fSizeProd 1 + fSizeProd 2 + fSizeProd 3 : ℤ), ex1))).2

/-! ### C5: concrete grid instances for the transfer operators.
2D: a rank-3 grid (dimension 0 carries `nValues = 1`): fine spatial size
4 x 4 (true size 2 x 2 plus one ghost layer per side), coarse 3 x 3
(true size 1 x 1).  3D: rank-4, fine 4 x 4 x 4, coarse 3 x 3 x 3, one
ghost layer per side in every spatial dimension. -/

def fSize2 : ℕ → ℤ := fun i => if i = 0 then 1 else 4

def cSize2 : ℕ → ℤ := fun i => if i = 0 then 1 else 3

def nGL3 : ℕ → ℤ := fun i => if i = 0 ∨ i = 3 then 0 else 1

def fsp2 : ℕ → ℤ := sizeProdOf fSize2

def csp2 : ℕ → ℤ := sizeProdOf cSize2

def fSize3 : ℕ → ℤ := fun i => if i = 0 then 1 else 4

def fTrue3 : ℕ → ℤ := fun i => if i = 0 then 1 else 2

def cSize3 : ℕ → ℤ := fun i => if i = 0 then 1 else 3

def cTrue3 : ℕ → ℤ := fun _ => 1

def nGL4 : ℕ → ℤ := fun i => if i = 0 ∨ i = 4 then 0 else 1

def fsp3 : ℕ → ℤ := sizeProdOf fSize3

def csp3 : ℕ → ℤ := sizeProdOf cSize3

set_option maxHeartbeats 2000000 in
/-- C5 (amended): restricting a constant fine field C with the
half-weight restrictor yields C at every coarse interior node, in 2D
(node 4 of the 3 x 3 coarse grid) and 3D (node 13 of the 3 x 3 x 3
coarse grid).  Prolonging the restricted field back to the fine grid
yields C at every fine interior node, in 3D directly onto the
still-constant fine grid (the trilinear passes assign), but in 2D only
into a zeroed fine grid, because the bilinear interpolation passes
accumulate (C `+=`) into the target. -/
theorem c5_restrict_prolong_constant_amended (C : ℚ) :
    (halfWeightRestrict2D (fun _ => C) fsp2 (fun _ => 0) csp2 cSize2 nGL3 3 4 = C ∧
      bilinearProlong2D (fun _ => 0) fsp2 fSize2
        (halfWeightRestrict2D (fun _ => C) fsp2 (fun _ => 0) csp2 cSize2 nGL3 3)
        csp2 cSize2 nGL3 3 5 = C ∧
      bilinearProlong2D (fun _ => 0) fsp2 fSize2
        (halfWeightRestrict2D (fun _ => C) fsp2 (fun _ => 0) csp2 cSize2 nGL3 3)
        csp2 cSize2 nGL3 3 6 = C ∧
      bilinearProlong2D (fun _ => 0) fsp2 fSize2
        (halfWeightRestrict2D (fun _ => C) fsp2 (fun _ => 0) csp2 cSize2 nGL3 3)
        csp2 cSize2 nGL3 3 9 = C ∧
      bilinearProlong2D (fun _ => 0) fsp2 fSize2
        (halfWeightRestrict2D (fun _ => C) fsp2 (fun _ => 0) csp2 cSize2 nGL3 3)
        csp2 cSize2 nGL3 3 10 = C) ∧
    (halfWeightRestrict3D (fun _ => C) fsp3 (fun _ => 0) csp3 cTrue3 nGL4 4 13 = C ∧
      bilinearProlong3D (fun _ => C) fsp3 fSize3 fTrue3
        (halfWeightRestrict3D (fun _ => C) fsp3 (fun _ => 0) csp3 cTrue3 nGL4 4)
        csp3 cTrue3 nGL4 4 21 = C ∧
      bilinearProlong3D (fun _ => C) fsp3 fSize3 fTrue3
        (halfWeightRestrict3D (fun _ => C) fsp3 (fun _ => 0) csp3 cTrue3 nGL4 4)
        csp3 cTrue3 nGL4 4 22 = C ∧
      bilinearProlong3D (fun _ => C) fsp3 fSize3 fTrue3
        (halfWeightRestrict3D (fun _ => C) fsp3 (fun _ => 0) csp3 cTrue3 nGL4 4)
        csp3 cTrue3 nGL4 4 25 = C ∧
      bilinearProlong3D (fun _ => C) fsp3 fSize3 fTrue3
        (halfWeightRestrict3D (fun _ => C) fsp3 (fun _ => 0) csp3 cTrue3 nGL4 4)
        csp3 cTrue3 nGL4 4 26 = C ∧
      bilinearProlong3D (fun _ => C) fsp3 fSize3 fTrue3
        (halfWeightRestrict3D (fun _ => C) fsp3 (fun _ => 0) csp3 cTrue3 nGL4 4)
        csp3 cTrue3 nGL4 4 37 = C ∧
      bilinearProlong3D (fun _ => C) fsp3 fSize3 fTrue3
        (halfWeightRestrict3D (fun _ => C) fsp3 (fun _ => 0) csp3 cTrue3 nGL4 4)
        csp3 cTrue3 nGL4 4 38 = C ∧
      bilinearProlong3D (fun _ => C) fsp3 fSize3 fTrue3
        (halfWeightRestrict3D (fun _ => C) fsp3 (fun _ => 0) csp3 cTrue3 nGL4 4)
        csp3 cTrue3 nGL4 4 41 = C ∧
      bilinearProlong3D (fun _ => C) fsp3 fSize3 fTrue3
        (halfWeightRestrict3D (fun _ => C) fsp3 (fun _ => 0) csp3 cTrue3 nGL4 4)
        csp3 cTrue3 nGL4 4 42 = C) := by
  refine ⟨?_, ?_⟩
  · have hc1 : (cSize2 2 - nGL3 (3 + 2) - nGL3 2).toNat = 1 := rfl
    have hc2 : (cSize2 1 - nGL3 (3 + 1) - nGL3 1).toNat = 1 := rfl
    have ht1 : (1 : ℤ).toNat = 1 := rfl
    have ht2 : (2 : ℤ).toNat = 2 := rfl
    have ht4 : (4 : ℤ).toNat = 4 := rfl
    have hr1 : List.range 1 = [0] := rfl
    have hr2 : List.range 2 = [0, 1] := rfl
    have hr4 : List.range 4 = [0, 1, 2, 3] := rfl
    have e1 : fsp2 1 = 1 := rfl
    have e2 : fsp2 2 = 4 := rfl
    have e3 : csp2 1 = 1 := rfl
    have e4 : csp2 2 = 3 := rfl
    have hs1 : fSize2 1 = 4 := rfl
    have hs2 : fSize2 2 = 4 := rfl
    norm_num [bilinearProlong2D, halfWeightRestrict2D, gSwapGhostsDim,
      hc1, hc2, ht1, ht2, ht4, hr1, hr2, hr4, e1, e2, e3, e4, hs1, hs2,
      List.foldl_cons, List.foldl_nil, Function.update_apply]
    try and_intros
    all_goals ring
  · have hc1 : (cTrue3 3).toNat = 1 := rfl
    have hc2 : (cTrue3 2).toNat = 1 := rfl
    have hc3 : (cTrue3 1).toNat = 1 := rfl
    have ht1 : (1 : ℤ).toNat = 1 := rfl
    have ht2 : (2 : ℤ).toNat = 2 := rfl
    have ht4 : (4 : ℤ).toNat = 4 := rfl
    have hr1 : List.range 1 = [0]:= rfl
    have hr2 : List.range 2 = [0, 1] := rfl
    have e1 : fsp3 1 = 1 := rfl
    have e2 : fsp3 2 = 4 := rfl
    have e3 : fsp3 3 = 16 := rfl
    have e4 : csp3 1 = 1 := rfl
    have e5 : csp3 2 = 3 := rfl
    have e6 : csp3 3 = 9 := rfl
    have hs1 : fSize3 1 = 4 := rfl
    have hs2 : fSize3 2 = 4 := rfl
    have hs3 : fSize3 3 = 4 := rfl
    have hu1 : fTrue3 1 = 2 := rfl
    have hu2 : fTrue3 2 = 2 := rfl
    have hu3 : fTrue3 3 = 2 := rfl
    have hv1 : cTrue3 1 = 1 := rfl
    have hv2 : cTrue3 2 = 1 := rfl
    have hv3 : cTrue3 3 = 1 := rfl
    norm_num [bilinearProlong3D, halfWeightRestrict3D, gSwapGhostsDim, nGL4,
      hc1, hc2, hc3, ht1, ht2, ht4, hr1, hr2, e1, e2, e3, e4, e5, e6,
      hs1, hs2, hs3, hu1, hu2, hu3, hv1, hv2, hv3,
      List.foldl_cons, List.foldl_nil, Function.update_apply]
    try and_intros
    all_goals ring

set_option maxHeartbeats 1000000 in
/-- C5 (counterexample to the claim as stated): on the 2D grids, with
fine field constant 1, restriction followed by prolongation back onto
the same (still constant-1) fine grid puts the value 2, not 1, at the
fine interior node 6: the 2D interpolation passes accumulate into the
target instead of assigning. -/
theorem c5_prolong2D_accumulates_counterexample :
    bilinearProlong2D (fun _ => 1) fsp2 fSize2
        (halfWeightRestrict2D (fun _ => 1) fsp2 (fun _ => 0) csp2 cSize2 nGL3 3)
        csp2 cSize2 nGL3 3 6 = 2 ∧ (2 : ℚ) ≠ 1 := by
  have hc1 : (cSize2 2 - nGL3 (3 + 2) - nGL3 2).toNat = 1 := rfl
  have hc2 : (cSize2 1 - nGL3 (3 + 1) - nGL3 1).toNat = 1 := rfl
  have ht1 : (1 : ℤ).toNat = 1 := rfl
  have ht2 : (2 : ℤ).toNat = 2 := rfl
  have ht4 : (4 : ℤ).toNat = 4 := rfl
  have hr1 : List.range 1 = [0]
  := rfl
  have hr2 : List.range 2 = [0, 1] := rfl
  have hr4 : List.range 4 = [0, 1, 2, 3] := rfl
  have e1 : fsp2 1 = 1 := rfl
  have e2 : fsp2 2 = 4 := rfl
  have e3 : csp2 1 = 1 := rfl
  have e4 : csp2 2 = 3 := rfl
  have hs1 : fSize2 1 = 4 := rfl
  have hs2 : fSize2 2 = 4 := rfl
  refine ⟨?_, by norm_num⟩
  norm_num [bilinearProlong2D, halfWeightRestrict2D, gSwapGhostsDim,
    hc1, hc2, ht1, ht2, ht4, hr1, hr2, hr4, e1, e2, e3, e4, hs1, hs2,
    List.foldl_cons, List.foldl_nil, Function.update_apply]
